import Mathlib

/-!
# Quadrature encoder counter module (`mod_encoder.c`)

A shallow embedding of the channel table `enc[ENCODER_CH_CNT]`, of the polling
thread `encoder_module_base_thread` and of the setup and accessor functions,
followed by theorems about them.

Conventions of the embedding:

* `uint8_t` values are natural numbers; every store into a `uint8_t` object is
  reduced `% 256`.
* `int32_t counts` is an integer; `counts += 1` and `counts -= 1` wrap to the
  signed 32-bit range (`wrap32`).
* A read outside an array (`state_list[i]` with `5 ≤ i`, `enc[c]` with
  `ENCODER_CH_CNT ≤ c`, a phase index above `PH_Z`) has no defined result in C;
  the embedded function returns `none` there.
* `gpio_pin_get` belongs to `mod_gpio.h`; it is a parameter of every function
  that calls it: a snapshot `port → pin → level` of the input lines.
* The `static` locals `c`, `A`, `B`, `Z`, `AB` of the polling thread are
  written before they are read in every iteration, so they carry no state from
  one call to the next and are local values here.
* `ENCODER_CH_CNT` belongs to `mod_encoder.h`; it is the length of the list
  that embeds `enc`.
-/

namespace ModEncoder

/-! ## Data model -/

/-- Modelled from the spec: the phase index constant `PH_A` of `mod_encoder.h`
(the header is not part of the sources); the spec lists the phase slots in the
order A, B, Z. -/
def PH_A : Nat := 0

/-- Modelled from the spec: the phase index constant `PH_B` of `mod_encoder.h`. -/
def PH_B : Nat := 1

/-- Modelled from the spec: the phase index constant `PH_Z` of `mod_encoder.h`. -/
def PH_Z : Nat := 2

/-- Modelled from the spec: `struct encoder_ch_t` of `mod_encoder.h`, with the
fields that `mod_encoder.c` reads and writes. `port`, `pin` and `state` are the
three-entry arrays indexed by phase; `AB_state` is the spec's
`quadrature_state`, `state` its `last_level`, `counts` its `count`. -/
structure encoder_ch_t where
  enabled : Nat
  using_B : Nat
  using_Z : Nat
  port : Nat → Nat
  pin : Nat → Nat
  state : Nat → Nat
  counts : Int
  AB_state : Nat

/-- A snapshot of the digital inputs: the value `gpio_pin_get(port, pin)`
returns. -/
abbrev gpio_t := Nat → Nat → Nat

/-- Line 20: `static uint8_t state_list[5] = {0b00, 0b01, 0b11, 0b10, 0b00}`. -/
def state_list : List Nat := [0b00, 0b01, 0b11, 0b10, 0b00]

/-- Signed 32-bit wraparound of an integer. -/
def wrap32 (x : Int) : Int := (x + 2147483648) % 4294967296 - 2147483648

/-- One element of the zero-initialised table (`= {0}`, line 19). -/
def encoder_ch_zero : encoder_ch_t where
  enabled := 0
  using_B := 0
  using_Z := 0
  port := fun _ => 0
  pin := fun _ => 0
  state := fun _ => 0
  counts := 0
  AB_state := 0

/-- Line 19: `static struct encoder_ch_t enc[ENCODER_CH_CNT] = {0}`, for a
channel count `cnt`. -/
def enc_init (cnt : Nat) : List encoder_ch_t := List.replicate cnt encoder_ch_zero

/-! ## The polling thread -/

/-- Lines 42-51: the phase Z block of the loop body. -/
def phase_Z_update (gpio_pin_get : gpio_t) (ch : encoder_ch_t) : encoder_ch_t :=
  if ch.using_Z ≠ 0 then
    let Z := gpio_pin_get (ch.port PH_Z) (ch.pin PH_Z) % 256
    if ch.state PH_Z ≠ Z then
      let ch1 := if Z ≠ 0 then { ch with counts := 0 } else ch
      { ch1 with state := Function.update ch1.state PH_Z Z }
    else ch
  else ch

/-- Lines 59-67: the phase change test, the direction lookup in `state_list`
and the store of `AB_state`, for sampled levels `A` and `B`. -/
def phase_AB_update (A B : Nat) (ch : encoder_ch_t) : Option encoder_ch_t :=
  if ch.state PH_A ≠ A ∨ ch.state PH_B ≠ B then
    let AB := (A ||| (B <<< 1)) % 256
    match state_list[AB]?, state_list[ch.AB_state + 1]? with
    | some x, some y =>
      some { ch with
        counts := if x = y then wrap32 (ch.counts + 1) else wrap32 (ch.counts - 1)
        AB_state := AB }
    | _, _ => none
  else some ch

/-- Lines 53-76: the sampling of phase A, the two-phase block or the
single-phase count, and the store of the last A level. -/
def decode_A_B (gpio_pin_get : gpio_t) (ch : encoder_ch_t) : Option encoder_ch_t :=
  let A := gpio_pin_get (ch.port PH_A) (ch.pin PH_A) % 256
  let r : Option encoder_ch_t :=
    if ch.using_B ≠ 0 then
      let B := gpio_pin_get (ch.port PH_B) (ch.pin PH_B) % 256
      (phase_AB_update A B ch).map
        (fun ch2 => { ch2 with state := Function.update ch2.state PH_B B })
    else if ch.state PH_A ≠ A ∧ A ≠ 0 then
      some { ch with counts := wrap32 (ch.counts + 1) }
    else some ch
  r.map (fun ch3 => { ch3 with state := Function.update ch3.state PH_A A })

/-- Lines 40-76: the body of the loop of `encoder_module_base_thread` for one
channel. -/
def encoder_ch_tick (gpio_pin_get : gpio_t) (ch : encoder_ch_t) : Option encoder_ch_t :=
  if ch.enabled = 0 then some ch
  else decode_A_B gpio_pin_get (phase_Z_update gpio_pin_get ch)

/-- Line 38: `for ( c = ENCODER_CH_CNT; c--; )` with the loop body applied to
`enc[c]`; the first argument is the value of `c` before the test. -/
def base_thread_loop (gpio_pin_get : gpio_t) :
    Nat → List encoder_ch_t → Option (List encoder_ch_t)
  | 0, enc => some enc
  | c + 1, enc =>
    match enc[c]? with
    | none => none
    | some ch =>
      match encoder_ch_tick gpio_pin_get ch with
      | none => none
      | some ch2 => base_thread_loop gpio_pin_get c (enc.set c ch2)

/-- Lines 33-78: `encoder_module_base_thread`. The counter `c` is a `uint8_t`
initialised with `ENCODER_CH_CNT`. -/
def encoder_module_base_thread (gpio_pin_get : gpio_t) (enc : List encoder_ch_t) :
    Option (List encoder_ch_t) :=
  base_thread_loop gpio_pin_get (enc.length % 256) enc

/-- The main loop of the usage example (`for(;;) encoder_module_base_thread();`)
run for as many iterations as there are input snapshots. -/
def encoder_main_loop : List gpio_t → List encoder_ch_t → Option (List encoder_ch_t)
  | [], enc => some enc
  | g :: gs, enc =>
    match encoder_module_base_thread g enc with
    | none => none
    | some enc2 => encoder_main_loop gs enc2

/-! ## Setup and accessors -/

/-- Lines 93-102: `encoder_pin_setup`. The call of `gpio_pin_setup_for_input`
acts on the GPIO hardware only and leaves the table alone. -/
def encoder_pin_setup (gpio_pin_get : gpio_t) (enc : List encoder_ch_t)
    (c phase port pin : Nat) : Option (List encoder_ch_t) :=
  match enc[c % 256]? with
  | none => none
  | some ch =>
    if phase % 256 ≤ PH_Z then
      some (enc.set (c % 256)
        { ch with
          port := Function.update ch.port (phase % 256) (port % 256)
          pin := Function.update ch.pin (phase % 256) (pin % 256)
          state := Function.update ch.state (phase % 256)
            (gpio_pin_get (port % 256) (pin % 256) % 256) })
    else none

/-- Lines 118-127: `encoder_setup`. -/
def encoder_setup (enc : List encoder_ch_t) (c enabled using_B using_Z : Nat) :
    Option (List encoder_ch_t) :=
  match enc[c % 256]? with
  | none => none
  | some ch =>
    some (enc.set (c % 256)
      { ch with
        enabled := enabled % 256
        using_B := using_B % 256
        using_Z := using_Z % 256
        AB_state := (ch.state PH_A ||| (ch.state PH_B <<< 1)) % 256 })

/-- Lines 134-137: `encoder_state_set`. -/
def encoder_state_set (enc : List encoder_ch_t) (c state : Nat) :
    Option (List encoder_ch_t) :=
  match enc[c % 256]? with
  | none => none
  | some ch => some (enc.set (c % 256) { ch with enabled := if state % 256 ≠ 0 then 1 else 0 })

/-- Lines 144-147: `encoder_counts_reset`. -/
def encoder_counts_reset (enc : List encoder_ch_t) (c : Nat) : Option (List encoder_ch_t) :=
  match enc[c % 256]? with
  | none => none
  | some ch => some (enc.set (c % 256) { ch with counts := 0 })

/-- Lines 160-163: `encoder_state_get`. -/
def encoder_state_get (enc : List encoder_ch_t) (c : Nat) : Option Nat :=
  (enc[c % 256]?).map (fun ch => ch.enabled)

/-- Lines 170-173: `encoder_counts_get`. -/
def encoder_counts_get (enc : List encoder_ch_t) (c : Nat) : Option Int :=
  (enc[c % 256]?).map (fun ch => ch.counts)

/-- Lines 200-203: the loop `for ( i = ENCODER_CH_CNT; i--; )` of
`encoder_msg_recv`, whose body is empty; the first argument is the value of
`i` before the test. -/
def msg_recv_loop : Nat → List encoder_ch_t → List encoder_ch_t
  | 0, enc => enc
  | i + 1, enc => msg_recv_loop i enc

/-- Lines 191-214: `encoder_msg_recv`, as the returned `int8_t` and the table
after the call. The command type constant `ENCODER_MSG_PINS_SETUP` belongs to
`mod_encoder.h` and is a parameter; `msg` is the content of the message
buffer. -/
def encoder_msg_recv (ENCODER_MSG_PINS_SETUP : Nat) (enc : List encoder_ch_t)
    (type : Nat) (_msg : List Nat) (_length : Nat) : Int × List encoder_ch_t :=
  if type % 256 = ENCODER_MSG_PINS_SETUP then
    (0, msg_recv_loop (enc.length % 256) enc)
  else (-1, enc)

/-! ## Sequences of calls -/

/-- One call of the module's API, with the input snapshot that the call reads
where it calls `gpio_pin_get`. -/
inductive encoder_call where
  | pin_setup (g : gpio_t) (c phase port pin : Nat)
  | setup (c enabled using_B using_Z : Nat)
  | state_set (c state : Nat)
  | counts_reset (c : Nat)
  | base_thread (g : gpio_t)

/-- The effect of one call on the table. -/
def encoder_call.run : encoder_call → List encoder_ch_t → Option (List encoder_ch_t)
  | .pin_setup g c phase port pin, enc => encoder_pin_setup g enc c phase port pin
  | .setup c enabled using_B using_Z, enc => encoder_setup enc c enabled using_B using_Z
  | .state_set c state, enc => encoder_state_set enc c state
  | .counts_reset c, enc => encoder_counts_reset enc c
  | .base_thread g, enc => encoder_module_base_thread g enc

/-- The effect of a sequence of calls, first call first. -/
def encoder_calls_run : List encoder_call → List encoder_ch_t → Option (List encoder_ch_t)
  | [], enc => some enc
  | k :: ks, enc =>
    match k.run enc with
    | none => none
    | some enc2 => encoder_calls_run ks enc2

/-- A call on a table of `cnt` channels has a valid channel index, a valid
phase index, and reads only the levels 0 and 1. -/
def encoder_call.valid (cnt : Nat) : encoder_call → Prop
  | .pin_setup g c phase _ _ => c < cnt ∧ phase ≤ PH_Z ∧ ∀ p q, g p q ≤ 1
  | .setup c _ _ _ => c < cnt
  | .state_set c _ => c < cnt
  | .counts_reset c => c < cnt
  | .base_thread g => ∀ p q, g p q ≤ 1

/-- The relation `AB_state = state[PH_A] | (state[PH_B] << 1)` between the
stored quadrature state and the stored last levels of a channel. -/
def AB_state_consistent (ch : encoder_ch_t) : Prop :=
  ch.AB_state = ch.state PH_A ||| (ch.state PH_B <<< 1)

/-! ## Inputs used in the evaluations -/

/-- An enabled two-phase channel (phase Z unused) bound to port 1, pins 2 (A)
and 3 (B), whose last levels are `a` and `b`, whose `AB_state` is
`a | (b << 1)`, with the given count. -/
def ch_AB (a b : Nat) (n : Int) : encoder_ch_t where
  enabled := 1
  using_B := 1
  using_Z := 0
  port := fun _ => 1
  pin := fun ph => ph + 2
  state := fun ph => if ph = PH_A then a else if ph = PH_B then b else 0
  counts := n
  AB_state := a ||| (b <<< 1)

/-- An enabled three-phase channel bound to port 1, pins 2 (A), 3 (B) and
4 (Z), whose last levels are `a`, `b` and `z`, whose `AB_state` is
`a | (b << 1)`, with the given count. -/
def ch_ABZ (a b z : Nat) (n : Int) : encoder_ch_t where
  enabled := 1
  using_B := 1
  using_Z := 1
  port := fun _ => 1
  pin := fun ph => ph + 2
  state := fun ph => if ph = PH_A then a else if ph = PH_B then b else z
  counts := n
  AB_state := a ||| (b <<< 1)

/-- The input snapshot in which port 1 reads `a` on pin 2, `b` on pin 3, `z` on
pin 4, and every other line reads 0. -/
def levels (a b z : Nat) : gpio_t := fun port pin =>
  if port = 1 then
    if pin = 2 then a else if pin = 3 then b else if pin = 4 then z else 0
  else 0

/-- An enabled single-phase channel bound to port 1, pin 2 (A), whose last A
level is `a`, with the given count. -/
def ch_A (a : Nat) (n : Int) : encoder_ch_t where
  enabled := 1
  using_B := 0
  using_Z := 0
  port := fun _ => 1
  pin := fun ph => ph + 2
  state := fun ph => if ph = PH_A then a else 0
  counts := n
  AB_state := 0

/-- A sequence of calls on a table of two channels: channel 0 is bound to
port 1, pins 2 and 3, set up as an enabled two-phase channel, ticked twice,
reset, and channel 1 is enabled. -/
def calls_example : List encoder_call :=
  [.pin_setup (levels 0 0 0) 0 PH_A 1 2, .pin_setup (levels 0 0 0) 0 PH_B 1 3,
   .setup 0 1 1 0, .base_thread (levels 1 0 0), .base_thread (levels 1 1 0),
   .counts_reset 0, .state_set 1 1]

/-! ## The polling thread, channel by channel -/

/-- The loop body applied to every channel of the table from the first to the
last; `none` as soon as one channel reads outside `state_list`. -/
def base_thread_forward (gpio_pin_get : gpio_t) :
    List encoder_ch_t → Option (List encoder_ch_t)
  | [] => some []
  | ch :: rest =>
    match encoder_ch_tick gpio_pin_get ch, base_thread_forward gpio_pin_get rest with
    | some ch2, some rest2 => some (ch2 :: rest2)
    | _, _ => none

theorem base_thread_forward_append (g : gpio_t) (l1 l2 : List encoder_ch_t) :
    base_thread_forward g (l1 ++ l2) =
      match base_thread_forward g l1, base_thread_forward g l2 with
      | some a, some b => some (a ++ b)
      | _, _ => none := by
  induction l1 with
  | nil =>
    simp only [List.nil_append, base_thread_forward]
    cases base_thread_forward g l2 <;> simp
  | cons ch rest ih =>
    rw [List.cons_append, base_thread_forward, ih]
    simp only [base_thread_forward]
    cases encoder_ch_tick g ch <;> cases base_thread_forward g rest <;>
      cases base_thread_forward g l2 <;> simp

theorem base_thread_loop_append (g : gpio_t) (pre : List encoder_ch_t) :
    ∀ post : List encoder_ch_t,
      base_thread_loop g pre.length (pre ++ post) =
        (base_thread_forward g pre).map (fun l => l ++ post) := by
  induction pre using List.reverseRecOn with
  | nil => intro post; simp [base_thread_loop, base_thread_forward]
  | append_singleton p ch ih =>
    intro post
    have hget : (p ++ [ch] ++ post)[p.length]? = some ch := by
      rw [List.append_assoc, List.getElem?_append_right (Nat.le_refl _)]
      simp
    have hset : ∀ ch2, (p ++ [ch] ++ post).set p.length ch2 = p ++ ch2 :: post := by
      intro ch2; simp
    rw [List.length_append, List.length_singleton, base_thread_loop, hget]
    simp only []
    rw [base_thread_forward_append]
    cases hc : encoder_ch_tick g ch with
    | none =>
      simp only [base_thread_forward, hc]
      cases base_thread_forward g p <;> simp
    | some ch2 =>
      simp only [hset, ih, base_thread_forward, hc]
      cases base_thread_forward g p <;> simp

/-- The polling thread (last channel to first) computes the same table as the
first-to-last pass, for a table whose length fits the `uint8_t` counter. -/
theorem base_thread_eq_forward (g : gpio_t) (enc : List encoder_ch_t)
    (hlen : enc.length < 256) :
    encoder_module_base_thread g enc = base_thread_forward g enc := by
  have h := base_thread_loop_append g enc []
  simp only [List.append_nil] at h
  rw [encoder_module_base_thread, Nat.mod_eq_of_lt hlen, h]
  cases base_thread_forward g enc <;> simp

theorem base_thread_forward_get (g : gpio_t) :
    ∀ (enc enc2 : List encoder_ch_t) (c : Nat) (ch : encoder_ch_t),
      base_thread_forward g enc = some enc2 → enc[c]? = some ch →
      ∃ ch2, encoder_ch_tick g ch = some ch2 ∧ enc2[c]? = some ch2 := by
  intro enc
  induction enc with
  | nil => intro enc2 c ch _ hc; simp at hc
  | cons hd rest ih =>
    intro enc2 c ch h hc
    simp only [base_thread_forward] at h
    cases hhd : encoder_ch_tick g hd with
    | none => simp [hhd] at h
    | some hd2 =>
      cases hrest : base_thread_forward g rest with
      | none => simp [hhd, hrest] at h
      | some rest2 =>
        simp only [hhd, hrest, Option.some.injEq] at h
        subst h
        cases c with
        | zero =>
          simp only [List.getElem?_cons_zero, Option.some.injEq] at hc
          subst hc
          exact ⟨hd2, hhd, by simp⟩
        | succ n =>
          simp only [List.getElem?_cons_succ] at hc
          obtain ⟨ch2, h1, h2⟩ := ih rest2 n ch hrest hc
          exact ⟨ch2, h1, by simpa using h2⟩

/-- One run of the polling thread changes channel `c` by the loop body and by
nothing else. -/
theorem base_thread_get (g : gpio_t) (enc enc2 : List encoder_ch_t) (c : Nat)
    (ch : encoder_ch_t) (hlen : enc.length < 256)
    (h : encoder_module_base_thread g enc = some enc2) (hc : enc[c]? = some ch) :
    ∃ ch2, encoder_ch_tick g ch = some ch2 ∧ enc2[c]? = some ch2 := by
  rw [base_thread_eq_forward g enc hlen] at h
  exact base_thread_forward_get g enc enc2 c ch h hc

theorem base_thread_length (g : gpio_t) (enc enc2 : List encoder_ch_t)
    (hlen : enc.length < 256)
    (h : encoder_module_base_thread g enc = some enc2) : enc2.length = enc.length := by
  rw [base_thread_eq_forward g enc hlen] at h
  clear hlen
  induction enc generalizing enc2 with
  | nil => simp [base_thread_forward] at h; simp [h]
  | cons hd rest ih =>
    simp only [base_thread_forward] at h
    cases hhd : encoder_ch_tick g hd with
    | none => simp [hhd] at h
    | some hd2 =>
      cases hrest : base_thread_forward g rest with
      | none => simp [hhd, hrest] at h
      | some rest2 =>
        simp only [hhd, hrest, Option.some.injEq] at h
        subst h
        simp [ih rest2 hrest]

theorem base_thread_forward_defined (g : gpio_t) :
    ∀ enc : List encoder_ch_t, (∀ x ∈ enc, ∃ x2, encoder_ch_tick g x = some x2) →
      ∃ enc2, base_thread_forward g enc = some enc2 := by
  intro enc
  induction enc with
  | nil => intro _; exact ⟨[], rfl⟩
  | cons hd rest ih =>
    intro h
    obtain ⟨hd2, hhd⟩ := h hd (List.mem_cons_self hd rest)
    obtain ⟨rest2, hrest⟩ := ih (fun x hx => h x (List.mem_cons_of_mem hd hx))
    exact ⟨hd2 :: rest2, by simp [base_thread_forward, hhd, hrest]⟩

/-- The polling thread returns a table whenever the loop body is defined on
every channel. -/
theorem base_thread_defined (g : gpio_t) (enc : List encoder_ch_t)
    (hlen : enc.length < 256) (h : ∀ x ∈ enc, ∃ x2, encoder_ch_tick g x = some x2) :
    ∃ enc2, encoder_module_base_thread g enc = some enc2 := by
  rw [base_thread_eq_forward g enc hlen]
  exact base_thread_forward_defined g enc h

theorem base_thread_lift (g : gpio_t) (enc : List encoder_ch_t) (c : Nat)
    (ch ch2 : encoder_ch_t) (hlen : enc.length < 256) (hc : enc[c]? = some ch)
    (ht : encoder_ch_tick g ch = some ch2) :
    ∀ enc2, encoder_module_base_thread g enc = some enc2 → enc2[c]? = some ch2 := by
  intro enc2 h
  obtain ⟨ch3, h3, h4⟩ := base_thread_get g enc enc2 c ch hlen h hc
  rw [ht] at h3
  cases h3
  exact h4

/-- A channel that every tick of a run leaves as it is, is the same after the
run of the main loop. -/
theorem main_loop_fixed (c : Nat) (ch : encoder_ch_t) :
    ∀ (gs : List gpio_t) (enc enc2 : List encoder_ch_t),
      enc.length < 256 → enc[c]? = some ch →
      (∀ g ∈ gs, encoder_ch_tick g ch = some ch) →
      encoder_main_loop gs enc = some enc2 → enc2[c]? = some ch := by
  intro gs
  induction gs with
  | nil =>
    intro enc enc2 _ hc _ h
    simp only [encoder_main_loop, Option.some.injEq] at h
    rw [← h]; exact hc
  | cons g gs ih =>
    intro enc enc2 hlen hc hfix h
    simp only [encoder_main_loop] at h
    cases h1 : encoder_module_base_thread g enc with
    | none => simp [h1] at h
    | some enc1 =>
      simp only [h1] at h
      have hlen1 : enc1.length < 256 := by
        rw [base_thread_length g enc enc1 hlen h1]; exact hlen
      have hc1 : enc1[c]? = some ch :=
        base_thread_lift g enc c ch ch hlen hc (hfix g (List.mem_cons_self g gs)) enc1 h1
      exact ih enc1 enc2 hlen1 hc1
        (fun g2 hg2 => hfix g2 (List.mem_cons_of_mem g hg2)) h

theorem counts_get_eq (enc : List encoder_ch_t) (c : Nat) (hc : c < 256) :
    encoder_counts_get enc c = (enc[c]?).map (fun ch => ch.counts) := by
  simp [encoder_counts_get, Nat.mod_eq_of_lt hc]

/-! ## The loop body on one channel -/

theorem encoder_ch_tick_disabled (g : gpio_t) (ch : encoder_ch_t) (h : ch.enabled = 0) :
    encoder_ch_tick g ch = some ch := by
  simp [encoder_ch_tick, h]

theorem phase_AB_update_same (A B : Nat) (ch : encoder_ch_t)
    (hA : ch.state PH_A = A) (hB : ch.state PH_B = B) :
    phase_AB_update A B ch = some ch := by
  simp [phase_AB_update, hA, hB]

theorem phase_AB_update_defined (A B : Nat) (ch : encoder_ch_t)
    (hA : A ≤ 1) (hB : B ≤ 1) (hp : ch.AB_state ≤ 3) :
    ∃ ch2, phase_AB_update A B ch = some ch2 := by
  unfold phase_AB_update
  split
  · have h1 : (A ||| (B <<< 1)) % 256 < state_list.length := by
      interval_cases A <;> interval_cases B <;> decide
    have h2 : ch.AB_state + 1 < state_list.length := by
      simp only [state_list, List.length_cons, List.length_nil]; omega
    simp [List.getElem?_eq_getElem h1, List.getElem?_eq_getElem h2]
  · exact ⟨ch, rfl⟩

theorem phase_AB_update_frame (A B : Nat) (ch ch2 : encoder_ch_t)
    (h : phase_AB_update A B ch = some ch2) :
    ch2.state = ch.state ∧ ch2.port = ch.port ∧ ch2.pin = ch.pin ∧
      ch2.enabled = ch.enabled ∧ ch2.using_B = ch.using_B ∧ ch2.using_Z = ch.using_Z := by
  unfold phase_AB_update at h
  split at h
  · simp only [] at h
    split at h
    · simp only [Option.some.injEq] at h
      subst h
      simp
    · simp at h
  · simp only [Option.some.injEq] at h
    subst h
    simp

theorem phase_Z_update_frame (g : gpio_t) (ch : encoder_ch_t) :
    (phase_Z_update g ch).state PH_A = ch.state PH_A ∧
    (phase_Z_update g ch).state PH_B = ch.state PH_B ∧
    (phase_Z_update g ch).port = ch.port ∧ (phase_Z_update g ch).pin = ch.pin ∧
    (phase_Z_update g ch).enabled = ch.enabled ∧
    (phase_Z_update g ch).using_B = ch.using_B ∧
    (phase_Z_update g ch).using_Z = ch.using_Z ∧
    (phase_Z_update g ch).AB_state = ch.AB_state := by
  unfold phase_Z_update
  split
  · simp only []
    split
    · split <;> simp [PH_A, PH_B, PH_Z, Function.update_apply]
    · simp
  · simp

theorem phase_Z_update_level (g : gpio_t) (ch : encoder_ch_t) (hZ : ch.using_Z ≠ 0) :
    (phase_Z_update g ch).state PH_Z = g (ch.port PH_Z) (ch.pin PH_Z) % 256 := by
  unfold phase_Z_update
  rw [if_pos hZ]
  simp only []
  split
  · split <;> simp
  · rename_i h
    exact not_not.mp h

/-- The result of the loop body on an enabled channel that samples `A` and `B`,
in terms of the phase Z block and the two-phase block. -/
theorem encoder_ch_tick_enabled (g : gpio_t) (ch ch2 : encoder_ch_t) (A B : Nat)
    (hA : g (ch.port PH_A) (ch.pin PH_A) % 256 = A)
    (hB : g (ch.port PH_B) (ch.pin PH_B) % 256 = B)
    (hen : ch.enabled ≠ 0) (ht : encoder_ch_tick g ch = some ch2) :
    ∃ ch3, ch2 = { ch3 with state := Function.update ch3.state PH_A A } ∧
      (ch.using_B ≠ 0 → ∃ ch4,
        phase_AB_update A B (phase_Z_update g ch) = some ch4 ∧
        ch3 = { ch4 with state := Function.update ch4.state PH_B B }) ∧
      (ch.using_B = 0 →
        ch3 = (if (phase_Z_update g ch).state PH_A ≠ A ∧ A ≠ 0 then
          { phase_Z_update g ch with counts := wrap32 ((phase_Z_update g ch).counts + 1) }
          else phase_Z_update g ch)) := by
  obtain ⟨_, _, hport, hpin, _, hub, _, _⟩ := phase_Z_update_frame g ch
  have hA1 : g ((phase_Z_update g ch).port PH_A) ((phase_Z_update g ch).pin PH_A) % 256
      = A := by rw [hport, hpin]; exact hA
  have hB1 : g ((phase_Z_update g ch).port PH_B) ((phase_Z_update g ch).pin PH_B) % 256
      = B := by rw [hport, hpin]; exact hB
  unfold encoder_ch_tick decode_A_B at ht
  rw [if_neg hen] at ht
  simp only [hA1, hB1, Option.map_eq_some'] at ht
  obtain ⟨ch3, h3, h32⟩ := ht
  refine ⟨ch3, h32.symm, ?_, ?_⟩
  · intro hb
    rw [if_pos (by rw [hub]; exact hb), Option.map_eq_some'] at h3
    obtain ⟨ch4, h4, h43⟩ := h3
    exact ⟨ch4, h4, h43.symm⟩
  · intro hb
    rw [if_neg (by rw [hub]; simpa using hb)] at h3
    split at h3 <;> rename_i hc
    · rw [if_pos hc]; exact (Option.some.inj h3).symm
    · rw [if_neg hc]; exact (Option.some.inj h3).symm

/-- The loop body is defined on every channel that is disabled, or does not use
phase B, or samples bits on A and B while its `AB_state` is at most 3. -/
theorem encoder_ch_tick_defined (g : gpio_t) (ch : encoder_ch_t)
    (h : ch.enabled ≠ 0 → ch.using_B ≠ 0 →
      g (ch.port PH_A) (ch.pin PH_A) % 256 ≤ 1 ∧ g (ch.port PH_B) (ch.pin PH_B) % 256 ≤ 1 ∧
        ch.AB_state ≤ 3) :
    ∃ ch2, encoder_ch_tick g ch = some ch2 := by
  obtain ⟨_, _, hport, hpin, _, hub, _, hab⟩ := phase_Z_update_frame g ch
  by_cases hen : ch.enabled = 0
  · exact ⟨ch, encoder_ch_tick_disabled g ch hen⟩
  · unfold encoder_ch_tick decode_A_B
    rw [if_neg hen]
    simp only [hport, hpin, hub]
    by_cases hb : ch.using_B = 0
    · rw [if_neg (by simpa using hb)]
      split <;> simp
    · rw [if_pos hb]
      obtain ⟨h1, h2, h3⟩ := h hen hb
      obtain ⟨ch4, h4⟩ := phase_AB_update_defined _ _ (phase_Z_update g ch) h1 h2
        (by rw [hab]; exact h3)
      simp [h4]

theorem base_thread_forward_set_congr {β : Type} (g : gpio_t) (f : encoder_ch_t → β)
    (chb : encoder_ch_t) :
    ∀ (enc : List encoder_ch_t) (c : Nat) (ch : encoder_ch_t), enc[c]? = some ch →
      (encoder_ch_tick g ch).map f = (encoder_ch_tick g chb).map f →
      (base_thread_forward g enc).bind (fun e => (e[c]?).map f) =
        (base_thread_forward g (enc.set c chb)).bind (fun e => (e[c]?).map f) := by
  intro enc
  induction enc with
  | nil => intro c ch hc; simp at hc
  | cons hd rest ih =>
    intro c ch hc h
    cases c with
    | zero =>
      simp only [List.getElem?_cons_zero, Option.some.injEq] at hc
      subst hc
      simp only [List.set_cons_zero, base_thread_forward]
      cases h1 : encoder_ch_tick g hd <;> cases h2 : encoder_ch_tick g chb <;>
        cases base_thread_forward g rest <;> simp [h1, h2] at h ⊢
      exact h
    | succ n =>
      simp only [List.getElem?_cons_succ] at hc
      have h3 := ih n ch hc h
      simp only [List.set_cons_succ, base_thread_forward]
      cases encoder_ch_tick g hd <;> cases h4 : base_thread_forward g rest <;>
        cases h5 : base_thread_forward g (rest.set n chb) <;>
        simp [h4, h5] at h3 ⊢
      all_goals exact h3

/-- The count that the A/B part of the loop body leaves depends on the ports,
the pins, the `using_B` flag, the last A and B levels, the count and
`AB_state` only. -/
theorem decode_A_B_counts_congr (g : gpio_t) (x y : encoder_ch_t)
    (hport : x.port = y.port) (hpin : x.pin = y.pin) (hub : x.using_B = y.using_B)
    (hA : x.state PH_A = y.state PH_A) (hB : x.state PH_B = y.state PH_B)
    (hcnt : x.counts = y.counts) (hab : x.AB_state = y.AB_state) :
    (decode_A_B g x).map (fun r => r.counts) = (decode_A_B g y).map (fun r => r.counts) := by
  unfold decode_A_B phase_AB_update
  simp only [hport, hpin, hub, hA, hB, hcnt, hab, Option.map_map]
  split
  · split
    · split <;> simp [hcnt]
    · simp [hcnt]
  · split <;> simp [hcnt]

/-- The phase Z block keeps the count when Z reads 0 or reads its last level. -/
theorem phase_Z_update_counts_keep (g : gpio_t) (ch : encoder_ch_t)
    (hz : g (ch.port PH_Z) (ch.pin PH_Z) % 256 = 0 ∨
      g (ch.port PH_Z) (ch.pin PH_Z) % 256 = ch.state PH_Z) :
    (phase_Z_update g ch).counts = ch.counts := by
  unfold phase_Z_update
  split
  · simp only []
    split
    · rename_i hne
      rcases hz with h0 | hs
      · simp [h0]
      · exact absurd hs.symm hne
    · rfl
  · rfl

/-- When a phase changed, the two-phase block moves the count by one step, up
or down. -/
theorem phase_AB_update_counts_changed (A B : Nat) (ch ch2 : encoder_ch_t)
    (hchg : ch.state PH_A ≠ A ∨ ch.state PH_B ≠ B)
    (h : phase_AB_update A B ch = some ch2) :
    ch2.counts = wrap32 (ch.counts + 1) ∨ ch2.counts = wrap32 (ch.counts - 1) := by
  unfold phase_AB_update at h
  rw [if_pos hchg] at h
  simp only [] at h
  split at h
  · simp only [Option.some.injEq] at h
    subst h
    simp only []
    split
    · exact Or.inl rfl
    · exact Or.inr rfl
  · simp at h

/-! ## Evaluations of the two-phase decoder -/

/-- C1: from last levels (0,0), `AB_state` 0 and count 0, the four ticks that
sample (1,0), (1,1), (0,1), (0,0) leave count -2: the first step adds 1 and
each of the other three subtracts 1, where a quadrature counter adds 4. -/
theorem C1_forward_cycle_evaluates :
    (encoder_main_loop [levels 1 0 0, levels 1 1 0, levels 0 1 0, levels 0 0 0]
        [ch_AB 0 0 0, encoder_ch_zero]).bind (fun e => encoder_counts_get e 0)
      = some (-2) := by
  decide

/-- C2: from last levels (0,0), `AB_state` 0 and count 0, the four ticks that
sample (0,1), (1,1), (1,0), (0,0) leave count -2: the second step adds 1 and
each of the other three subtracts 1, where a quadrature counter subtracts 4. -/
theorem C2_reverse_cycle_evaluates :
    (encoder_main_loop [levels 0 1 0, levels 1 1 0, levels 1 0 0, levels 0 0 0]
        [ch_AB 0 0 0, encoder_ch_zero]).bind (fun e => encoder_counts_get e 0)
      = some (-2) := by
  decide

/-- C3: with last levels (A=1,B=0), `AB_state` 0b01 and count 0, a tick that
samples (1,1), the successor 0b11 of 0b01 in the cyclic order, leaves count
-1, and a tick that samples (0,1), which is 0b10 and not the successor, leaves
count 1. -/
theorem C3_successor_step_evaluates :
    (encoder_module_base_thread (levels 1 1 0) [ch_AB 1 0 0]).bind
        (fun e => encoder_counts_get e 0) = some (-1) ∧
    (encoder_module_base_thread (levels 0 1 0) [ch_AB 1 0 0]).bind
        (fun e => encoder_counts_get e 0) = some 1 := by
  decide

/-- C4: on the zero-initialised table, after the A and B pins of channel 0 are
set up while both read 0 and the channel is set up enabled with phase B, the
five ticks that sample (1,0), (1,1), (0,1), (0,0), (1,0) make
`encoder_counts_get(0)` return -1. -/
theorem C4_scenario_evaluates :
    ((((encoder_pin_setup (levels 0 0 0) (enc_init 2) 0 PH_A 1 2).bind
        (fun e => encoder_pin_setup (levels 0 0 0) e 0 PH_B 1 3)).bind
        (fun e => encoder_setup e 0 1 1 0)).bind
        (fun e => encoder_main_loop
          [levels 1 0 0, levels 1 1 0, levels 0 1 0, levels 0 0 0, levels 1 0 0] e)).bind
        (fun e => encoder_counts_get e 0) = some (-1) := by
  decide

/-- C5, counterexample: an enabled A-B-Z channel with last levels all 0 and
count 7 that samples Z = 1 together with (A,B) = (1,0) ends the tick with
count 1, not 0. -/
theorem C5_index_reset_then_step :
    (encoder_module_base_thread (levels 1 0 1) [ch_ABZ 0 0 0 7]).bind
        (fun e => encoder_counts_get e 0) = some 1 ∧
    (encoder_module_base_thread (levels 1 0 1) [ch_ABZ 0 0 0 7]).bind
        (fun e => encoder_counts_get e 0) ≠ some 0 := by
  decide

/-! ## Single-phase counting, held inputs, disabled channels -/

/-- C7: for an enabled channel `c` with neither phase B nor phase Z in use, the
loop body is defined and the table holds its result at `c` after the thread
ran (the thread returns whenever the loop body is defined on every channel); a
sampled A = 1 against a last level 0 leaves `counts = wrap32 (n + 1)`, and a
sampled A = 0 against a last level 1, or a sampled A equal to the last level,
leaves `counts = n`. -/
theorem C7_single_phase_counts_rising_edges (g : gpio_t) (enc : List encoder_ch_t)
    (c : Nat) (ch : encoder_ch_t) (hlen : enc.length < 256) (hc : enc[c]? = some ch)
    (hen : ch.enabled ≠ 0) (hB : ch.using_B = 0) (hZ : ch.using_Z = 0) :
    ∃ ch2, encoder_ch_tick g ch = some ch2 ∧
      (∀ enc2, encoder_module_base_thread g enc = some enc2 → enc2[c]? = some ch2) ∧
      ((∀ x ∈ enc, ∃ x2, encoder_ch_tick g x = some x2) →
        ∃ enc2, encoder_module_base_thread g enc = some enc2) ∧
      (ch.state PH_A = 0 → g (ch.port PH_A) (ch.pin PH_A) % 256 = 1 →
        ch2.counts = wrap32 (ch.counts + 1)) ∧
      (ch.state PH_A = 1 → g (ch.port PH_A) (ch.pin PH_A) % 256 = 0 →
        ch2.counts = ch.counts) ∧
      (g (ch.port PH_A) (ch.pin PH_A) % 256 = ch.state PH_A → ch2.counts = ch.counts) := by
  have ht : ∃ ch2, encoder_ch_tick g ch = some ch2 := by
    simp only [encoder_ch_tick, decode_A_B, phase_Z_update, hen, hB, hZ, ne_eq, not_true_eq_false,
      if_false]
    split <;> simp
  obtain ⟨ch2, ht⟩ := ht
  refine ⟨ch2, ht, base_thread_lift g enc c ch ch2 hlen hc ht,
    base_thread_defined g enc hlen, ?_, ?_, ?_⟩
  · intro h0 h1
    simp [encoder_ch_tick, decode_A_B, phase_Z_update, hen, hB, hZ, h0, h1] at ht
    rw [← ht]
  · intro h1 h0
    simp [encoder_ch_tick, decode_A_B, phase_Z_update, hen, hB, hZ, h0, h1] at ht
    rw [← ht]
  · intro hs
    simp [encoder_ch_tick, decode_A_B, phase_Z_update, hen, hB, hZ, hs] at ht
    rw [← ht]

/-- C7 at a concrete input: a single-phase channel with last A level 0 and
count 5 that samples A = 1. -/
theorem C7_single_phase_witness :
    [ch_A 0 5].length < 256 ∧ [ch_A 0 5][0]? = some (ch_A 0 5) ∧
    (ch_A 0 5).enabled ≠ 0 ∧ (ch_A 0 5).using_B = 0 ∧ (ch_A 0 5).using_Z = 0 ∧
    (∃ ch2, encoder_ch_tick (levels 1 0 0) (ch_A 0 5) = some ch2 ∧ ch2.counts = 6) ∧
    (encoder_module_base_thread (levels 1 0 0) [ch_A 0 5]).bind
      (fun e => encoder_counts_get e 0) = some 6 := by
  obtain ⟨ch2, ht, _, _, h1, _, _⟩ :=
    C7_single_phase_counts_rising_edges (levels 1 0 0) [ch_A 0 5] 0 (ch_A 0 5)
      (by decide) rfl (by decide) rfl rfl
  refine ⟨by decide, rfl, by decide, rfl, rfl, ⟨ch2, ht, ?_⟩, by decide⟩
  rw [h1 rfl (by decide)]
  decide

/-- C8: for an enabled channel `c` with phase B in use and phase Z not in use,
every tick that samples A and B equal to the last levels returns the channel
as it was, so after any number of such ticks the table holds at `c` the same
`counts`, `AB_state` and `state`. -/
theorem C8_held_levels_leave_channel (gs : List gpio_t) (enc : List encoder_ch_t)
    (c : Nat) (ch : encoder_ch_t) (hlen : enc.length < 256) (hc : enc[c]? = some ch)
    (hen : ch.enabled ≠ 0) (hB : ch.using_B ≠ 0) (hZ : ch.using_Z = 0)
    (hheld : ∀ g ∈ gs, g (ch.port PH_A) (ch.pin PH_A) % 256 = ch.state PH_A ∧
      g (ch.port PH_B) (ch.pin PH_B) % 256 = ch.state PH_B) :
    (∀ g ∈ gs, encoder_ch_tick g ch = some ch) ∧
    (∀ enc2, encoder_main_loop gs enc = some enc2 → enc2[c]? = some ch) := by
  have hfix : ∀ g ∈ gs, encoder_ch_tick g ch = some ch := by
    intro g hg
    obtain ⟨hA, hBl⟩ := hheld g hg
    have hz : phase_Z_update g ch = ch := by simp [phase_Z_update, hZ]
    simp [encoder_ch_tick, decode_A_B, hz, hen, hB, hA, hBl, phase_AB_update_same _ _ ch rfl rfl]
  exact ⟨hfix, fun enc2 h => main_loop_fixed c ch gs enc enc2 hlen hc hfix h⟩

/-- C8 at a concrete input: three ticks holding (A,B) = (1,0) on a channel
whose last levels are (1,0). -/
theorem C8_held_levels_witness :
    encoder_main_loop [levels 1 0 0, levels 1 0 0, levels 1 0 0] [ch_AB 1 0 10]
      = some [ch_AB 1 0 10] ∧
    [ch_AB 1 0 10][0]? = some (ch_AB 1 0 10) := by
  have h := C8_held_levels_leave_channel [levels 1 0 0, levels 1 0 0, levels 1 0 0]
    [ch_AB 1 0 10] 0 (ch_AB 1 0 10) (by decide) rfl (by decide) (by decide) rfl
    (by intro g hg; simp at hg; subst hg; exact ⟨by decide, by decide⟩)
  have h1 := h.1 (levels 1 0 0) (by simp)
  have hb : encoder_module_base_thread (levels 1 0 0) [ch_AB 1 0 10]
      = some [ch_AB 1 0 10] := by
    rw [base_thread_eq_forward _ _ (by decide)]
    simp [base_thread_forward, h1]
  exact ⟨by simp [encoder_main_loop, hb], rfl⟩

/-- C9: for a channel `c` whose `enabled` flag is 0, every tick returns the
channel as it was, whatever the inputs read, so after any run of ticks the
table holds at `c` the same `counts`, `state`, `AB_state` and mode flags. -/
theorem C9_disabled_channel_untouched (gs : List gpio_t) (enc : List encoder_ch_t)
    (c : Nat) (ch : encoder_ch_t) (hlen : enc.length < 256) (hc : enc[c]? = some ch)
    (hdis : ch.enabled = 0) :
    (∀ g, encoder_ch_tick g ch = some ch) ∧
    (∀ enc2, encoder_main_loop gs enc = some enc2 → enc2[c]? = some ch) :=
  ⟨fun g => encoder_ch_tick_disabled g ch hdis,
   fun enc2 h => main_loop_fixed c ch gs enc enc2 hlen hc
     (fun g _ => encoder_ch_tick_disabled g ch hdis) h⟩

/-- C9 at a concrete input: a disabled two-phase channel with count 10 over two
ticks whose A, B and Z inputs change. -/
theorem C9_disabled_channel_witness :
    ({ ch_ABZ 0 0 0 10 with enabled := 0 } : encoder_ch_t).enabled = 0 ∧
    encoder_main_loop [levels 1 0 1, levels 1 1 0] [{ ch_ABZ 0 0 0 10 with enabled := 0 }]
      = some [{ ch_ABZ 0 0 0 10 with enabled := 0 }] := by
  have h := C9_disabled_channel_untouched [levels 1 0 1, levels 1 1 0]
    [{ ch_ABZ 0 0 0 10 with enabled := 0 }] 0 { ch_ABZ 0 0 0 10 with enabled := 0 }
    (by decide) rfl rfl
  have hb : ∀ g, encoder_module_base_thread g [{ ch_ABZ 0 0 0 10 with enabled := 0 }]
      = some [{ ch_ABZ 0 0 0 10 with enabled := 0 }] := by
    intro g
    rw [base_thread_eq_forward _ _ (by decide)]
    simp [base_thread_forward, h.1 g]
  exact ⟨rfl, by simp [encoder_main_loop, hb]⟩

/-! ## Last levels -/

/-- C10: for an enabled channel `c`, whatever the tick returns has
`state[PH_A]` equal to the sampled A level, `state[PH_B]` equal to the sampled
B level when phase B is in use, and `state[PH_Z]` equal to the sampled Z level
when phase Z is in use; the table holds that result at `c` after the thread
ran; the loop body is defined whenever phase B is unused or A and B read bits
and `AB_state` is at most 3; and the thread returns whenever every channel has
the loop body defined. -/
theorem C10_last_levels_mirror_samples (g : gpio_t) (enc : List encoder_ch_t)
    (c : Nat) (ch : encoder_ch_t) (hlen : enc.length < 256) (hc : enc[c]? = some ch)
    (hen : ch.enabled ≠ 0) :
    (∀ ch2, encoder_ch_tick g ch = some ch2 →
      ch2.state PH_A = g (ch.port PH_A) (ch.pin PH_A) % 256 ∧
      (ch.using_B ≠ 0 → ch2.state PH_B = g (ch.port PH_B) (ch.pin PH_B) % 256) ∧
      (ch.using_Z ≠ 0 → ch2.state PH_Z = g (ch.port PH_Z) (ch.pin PH_Z) % 256)) ∧
    (∀ enc2, encoder_module_base_thread g enc = some enc2 →
      ∃ ch2, encoder_ch_tick g ch = some ch2 ∧ enc2[c]? = some ch2) ∧
    ((ch.using_B ≠ 0 →
        g (ch.port PH_A) (ch.pin PH_A) % 256 ≤ 1 ∧ g (ch.port PH_B) (ch.pin PH_B) % 256 ≤ 1 ∧
          ch.AB_state ≤ 3) →
      ∃ ch2, encoder_ch_tick g ch = some ch2) ∧
    ((∀ x ∈ enc, ∃ x2, encoder_ch_tick g x = some x2) →
      ∃ enc2, encoder_module_base_thread g enc = some enc2) := by
  refine ⟨?_, fun enc2 h => base_thread_get g enc enc2 c ch hlen h hc,
    fun h => encoder_ch_tick_defined g ch (fun _ => h), base_thread_defined g enc hlen⟩
  intro ch2 ht
  obtain ⟨ch3, h23, hB3, hA3⟩ := encoder_ch_tick_enabled g ch ch2 _ _ rfl rfl hen ht
  subst h23
  refine ⟨by simp, ?_, ?_⟩
  · intro hb
    obtain ⟨ch4, _, h34⟩ := hB3 hb
    subst h34
    simp [PH_A, PH_B, Function.update_apply]
  · intro hz
    have hzl := phase_Z_update_level g ch hz
    by_cases hb : ch.using_B = 0
    · have h3 := hA3 hb
      have : ch3.state = (phase_Z_update g ch).state := by rw [h3]; split <;> rfl
      simp [PH_A, PH_Z, Function.update_apply, this]
      simpa [PH_Z] using hzl
    · obtain ⟨ch4, h4, h34⟩ := hB3 hb
      obtain ⟨hst, _⟩ := phase_AB_update_frame _ _ _ _ h4
      subst h34
      simp [PH_A, PH_B, PH_Z, Function.update_apply, hst]
      simpa [PH_Z] using hzl

/-- C10 at a concrete input: an A-B-Z channel with last levels all 0 that
samples A = 1, B = 0, Z = 1. -/
theorem C10_last_levels_witness :
    [ch_ABZ 0 0 0 7].length < 256 ∧ [ch_ABZ 0 0 0 7][0]? = some (ch_ABZ 0 0 0 7) ∧
    (ch_ABZ 0 0 0 7).enabled ≠ 0 ∧
    (∃ ch2, encoder_ch_tick (levels 1 0 1) (ch_ABZ 0 0 0 7) = some ch2 ∧
      ch2.state PH_A = 1 ∧ ch2.state PH_B = 0 ∧ ch2.state PH_Z = 1) ∧
    (encoder_module_base_thread (levels 1 0 1) [ch_ABZ 0 0 0 7]).bind
      (fun e => (e[0]?).map (fun r => (r.state PH_A, r.state PH_B, r.state PH_Z)))
      = some (1, 0, 1) := by
  have h := C10_last_levels_mirror_samples (levels 1 0 1) [ch_ABZ 0 0 0 7] 0
    (ch_ABZ 0 0 0 7) (by decide) rfl (by decide)
  obtain ⟨ch2, ht⟩ := h.2.2.1 (fun _ => by decide)
  obtain ⟨hA, hB, hZ⟩ := h.1 ch2 ht
  exact ⟨by decide, rfl, by decide, ⟨ch2, ht, hA, hB (by decide), hZ (by decide)⟩,
    by decide⟩

/-! ## The index phase -/

/-- C6: for an enabled channel `c` with phase Z in use, on a tick where Z reads
0 or reads the last Z level, the count after the tick is the count the same
tick gives with `using_Z` cleared, for the loop body and for the thread on the
table; and when Z falls from 1 to 0 while A (and B, when in use) read their
last levels, the count after the tick is the count before it. -/
theorem C6_index_release_keeps_count (g : gpio_t) (enc : List encoder_ch_t)
    (c : Nat) (ch : encoder_ch_t) (hlen : enc.length < 256) (hc : enc[c]? = some ch)
    (hen : ch.enabled ≠ 0) (_hZ : ch.using_Z ≠ 0)
    (hz : g (ch.port PH_Z) (ch.pin PH_Z) % 256 = 0 ∨
      g (ch.port PH_Z) (ch.pin PH_Z) % 256 = ch.state PH_Z) :
    (encoder_ch_tick g ch).map (fun r => r.counts) =
      (encoder_ch_tick g { ch with using_Z := 0 }).map (fun r => r.counts) ∧
    (encoder_module_base_thread g enc).bind (fun e => encoder_counts_get e c) =
      (encoder_module_base_thread g (enc.set c { ch with using_Z := 0 })).bind
        (fun e => encoder_counts_get e c) ∧
    (ch.state PH_Z = 1 → g (ch.port PH_Z) (ch.pin PH_Z) % 256 = 0 →
      g (ch.port PH_A) (ch.pin PH_A) % 256 = ch.state PH_A →
      (ch.using_B ≠ 0 → g (ch.port PH_B) (ch.pin PH_B) % 256 = ch.state PH_B) →
      (encoder_ch_tick g ch).map (fun r => r.counts) = some ch.counts ∧
      ∀ enc2, encoder_module_base_thread g enc = some enc2 →
        encoder_counts_get enc2 c = some ch.counts) := by
  have hclt : c < 256 := by
    obtain ⟨h1, _⟩ := List.getElem?_eq_some.mp hc
    omega
  obtain ⟨fA, fB, fport, fpin, _, fub, _, fab⟩ := phase_Z_update_frame g ch
  have hz2 : phase_Z_update g { ch with using_Z := 0 } = { ch with using_Z := 0 } := by
    simp [phase_Z_update]
  have h1 : (encoder_ch_tick g ch).map (fun r => r.counts) =
      (encoder_ch_tick g { ch with using_Z := 0 }).map (fun r => r.counts) := by
    unfold encoder_ch_tick
    rw [hz2, if_neg hen, if_neg (by exact hen)]
    exact decode_A_B_counts_congr g _ _ fport fpin fub fA fB
      (phase_Z_update_counts_keep g ch hz) fab
  refine ⟨h1, ?_, ?_⟩
  · rw [base_thread_eq_forward g enc hlen,
      base_thread_eq_forward g _ (by rw [List.length_set]; exact hlen)]
    have h2 := base_thread_forward_set_congr g (fun r => r.counts) { ch with using_Z := 0 }
      enc c ch hc h1
    simpa [counts_get_eq _ c hclt] using h2
  · intro _ _ hA hB
    have h3 : (encoder_ch_tick g ch).map (fun r => r.counts) = some ch.counts := by
      rw [h1]
      unfold encoder_ch_tick
      rw [hz2, if_neg (by exact hen)]
      unfold decode_A_B
      by_cases hb : ch.using_B = 0
      · simp [hb, hA]
      · simp [hb, hA, hB hb, phase_AB_update]
    refine ⟨h3, ?_⟩
    intro enc2 he
    obtain ⟨ch2, ht, hg⟩ := base_thread_get g enc enc2 c ch hlen he hc
    rw [counts_get_eq _ c hclt, hg]
    rw [ht] at h3
    simpa using h3

/-- C6 at a concrete input: a three-phase channel with last levels
(A,B,Z) = (1,0,1) and count 10 on a tick that reads (1,0,0). -/
theorem C6_index_release_witness :
    [ch_ABZ 1 0 1 10].length < 256 ∧ [ch_ABZ 1 0 1 10][0]? = some (ch_ABZ 1 0 1 10) ∧
    (ch_ABZ 1 0 1 10).enabled ≠ 0 ∧ (ch_ABZ 1 0 1 10).using_Z ≠ 0 ∧
    levels 1 0 0 ((ch_ABZ 1 0 1 10).port PH_Z) ((ch_ABZ 1 0 1 10).pin PH_Z) % 256 = 0 ∧
    (encoder_ch_tick (levels 1 0 0) (ch_ABZ 1 0 1 10)).map (fun r => r.counts) = some 10 ∧
    (encoder_module_base_thread (levels 1 0 0) [ch_ABZ 1 0 1 10]).bind
      (fun e => encoder_counts_get e 0) = some 10 := by
  have h := C6_index_release_keeps_count (levels 1 0 0) [ch_ABZ 1 0 1 10] 0
    (ch_ABZ 1 0 1 10) (by decide) rfl (by decide) (by decide) (Or.inl (by decide))
  exact ⟨by decide, rfl, by decide, by decide, by decide,
    (h.2.2 (by decide) (by decide) (by decide) (fun _ => by decide)).1, by decide⟩

/-- C5, amended: for an enabled channel `c` with phases B and Z in use and last
Z level 0, a tick that samples Z = 1 clears the count before the A/B decoding:
the result is that of the same tick from count 0; it has count 0 when A and B
read their last levels; when A or B changed it has count 1 or -1, and the loop
body is defined when A and B read bits and `AB_state` is at most 3; the table
holds the result at `c` after the thread ran, and the thread returns whenever
the loop body is defined on every channel. -/
theorem C5_index_assert_clears_before_decoding (g : gpio_t) (enc : List encoder_ch_t)
    (c : Nat) (ch : encoder_ch_t) (hlen : enc.length < 256) (hc : enc[c]? = some ch)
    (hen : ch.enabled ≠ 0) (hB : ch.using_B ≠ 0) (hZ : ch.using_Z ≠ 0)
    (hz0 : ch.state PH_Z = 0) (hz1 : g (ch.port PH_Z) (ch.pin PH_Z) % 256 = 1) :
    encoder_ch_tick g ch = encoder_ch_tick g { ch with counts := 0 } ∧
    (g (ch.port PH_A) (ch.pin PH_A) % 256 = ch.state PH_A →
      g (ch.port PH_B) (ch.pin PH_B) % 256 = ch.state PH_B →
      ∃ ch2, encoder_ch_tick g ch = some ch2 ∧ ch2.counts = 0) ∧
    ((ch.state PH_A ≠ g (ch.port PH_A) (ch.pin PH_A) % 256 ∨
        ch.state PH_B ≠ g (ch.port PH_B) (ch.pin PH_B) % 256) →
      (∀ ch2, encoder_ch_tick g ch = some ch2 → ch2.counts = 1 ∨ ch2.counts = -1) ∧
      (g (ch.port PH_A) (ch.pin PH_A) % 256 ≤ 1 → g (ch.port PH_B) (ch.pin PH_B) % 256 ≤ 1 →
        ch.AB_state ≤ 3 → ∃ ch2, encoder_ch_tick g ch = some ch2)) ∧
    (∀ enc2, encoder_module_base_thread g enc = some enc2 →
      ∃ ch2, encoder_ch_tick g ch = some ch2 ∧ enc2[c]? = some ch2) ∧
    ((∀ x ∈ enc, ∃ x2, encoder_ch_tick g x = some x2) →
      ∃ enc2, encoder_module_base_thread g enc = some enc2) := by
  have hzu : phase_Z_update g ch =
      { ch with counts := 0, state := Function.update ch.state PH_Z 1 } := by
    simp [phase_Z_update, hZ, hz0, hz1]
  have hzu0 : phase_Z_update g { ch with counts := 0 } =
      { ch with counts := 0, state := Function.update ch.state PH_Z 1 } := by
    simp [phase_Z_update, hZ, hz0, hz1]
  refine ⟨?_, ?_, ?_, fun enc2 h => base_thread_get g enc enc2 c ch hlen h hc,
    base_thread_defined g enc hlen⟩
  · unfold encoder_ch_tick
    rw [hzu, hzu0, if_neg hen, if_neg (by exact hen)]
  · intro hA hBl
    unfold encoder_ch_tick
    rw [hzu, if_neg hen]
    unfold decode_A_B
    have hs := phase_AB_update_same (g (ch.port PH_A) (ch.pin PH_A) % 256)
      (g (ch.port PH_B) (ch.pin PH_B) % 256)
      { ch with counts := 0, state := Function.update ch.state PH_Z 1 }
      (by rw [hA]; simp [PH_A, PH_Z, Function.update_apply])
      (by rw [hBl]; simp [PH_B, PH_Z, Function.update_apply])
    simp [hB, hs]
  · intro hchg
    refine ⟨?_, fun h1 h2 h3 => encoder_ch_tick_defined g ch (fun _ _ => ⟨h1, h2, h3⟩)⟩
    intro ch2 ht
    obtain ⟨ch3, h23, hB3, _⟩ := encoder_ch_tick_enabled g ch ch2 _ _ rfl rfl hen ht
    obtain ⟨ch4, h4, h34⟩ := hB3 hB
    have hcnt : ch2.counts = ch4.counts := by rw [h23, h34]
    rw [hzu] at h4
    have hstep := phase_AB_update_counts_changed _ _ _ ch4
      (by simpa [PH_A, PH_B, PH_Z, Function.update_apply] using hchg) h4
    rw [hcnt]
    rcases hstep with h | h
    · left; rw [h]; show wrap32 (0 + 1) = 1; decide
    · right; rw [h]; show wrap32 (0 - 1) = -1; decide

/-- C5, amended, at a concrete input: a three-phase channel with last levels
all 0 and count 7 on a tick that reads Z = 1 with A and B still 0. -/
theorem C5_index_assert_witness :
    [ch_ABZ 0 0 0 7].length < 256 ∧ [ch_ABZ 0 0 0 7][0]? = some (ch_ABZ 0 0 0 7) ∧
    (ch_ABZ 0 0 0 7).enabled ≠ 0 ∧ (ch_ABZ 0 0 0 7).using_B ≠ 0 ∧
    (ch_ABZ 0 0 0 7).using_Z ≠ 0 ∧ (ch_ABZ 0 0 0 7).state PH_Z = 0 ∧
    levels 0 0 1 ((ch_ABZ 0 0 0 7).port PH_Z) ((ch_ABZ 0 0 0 7).pin PH_Z) % 256 = 1 ∧
    (∃ ch2, encoder_ch_tick (levels 0 0 1) (ch_ABZ 0 0 0 7) = some ch2 ∧ ch2.counts = 0) ∧
    (encoder_module_base_thread (levels 0 0 1) [ch_ABZ 0 0 0 7]).bind
      (fun e => encoder_counts_get e 0) = some 0 := by
  have h := C5_index_assert_clears_before_decoding (levels 0 0 1) [ch_ABZ 0 0 0 7] 0
    (ch_ABZ 0 0 0 7) (by decide) rfl (by decide) (by decide) (by decide) (by decide)
    (by decide)
  exact ⟨by decide, rfl, by decide, by decide, by decide, by decide, by decide,
    h.2.1 (by decide) (by decide), by decide⟩

/-! ## Accessors and setup functions -/

theorem getElem?_set_other (enc : List encoder_ch_t) (c j : Nat) (x : encoder_ch_t)
    (h : j ≠ c) : (enc.set c x)[j]? = enc[j]? :=
  List.getElem?_set_ne (Ne.symm h)

theorem getElem?_set_same (enc : List encoder_ch_t) (c : Nat) (ch x : encoder_ch_t)
    (hc : enc[c]? = some ch) : (enc.set c x)[c]? = some x := by
  obtain ⟨h1, _⟩ := List.getElem?_eq_some.mp hc
  exact List.getElem?_set_self h1

/-- C11: for a channel `c` of the table, enabled or not and whatever its count,
`encoder_counts_reset(c)` returns a table on which `encoder_counts_get(c)` is
0, in which channel `c` differs from before in `counts` only, and in which
every other channel is as before. -/
theorem C11_counts_reset_then_get (enc : List encoder_ch_t) (c : Nat) (ch : encoder_ch_t)
    (hc : enc[c]? = some ch) (hlt : c < 256) :
    ∃ enc2, encoder_counts_reset enc c = some enc2 ∧
      encoder_counts_get enc2 c = some 0 ∧
      enc2[c]? = some { ch with counts := 0 } ∧
      enc2.length = enc.length ∧
      ∀ j, j ≠ c → enc2[j]? = enc[j]? := by
  have hm : c % 256 = c := Nat.mod_eq_of_lt hlt
  refine ⟨enc.set c { ch with counts := 0 }, ?_, ?_, ?_, ?_, ?_⟩
  · simp [encoder_counts_reset, hm, hc]
  · simp [encoder_counts_get, hm, getElem?_set_same enc c ch _ hc]
  · exact getElem?_set_same enc c ch _ hc
  · simp
  · intro j hj
    exact getElem?_set_other enc c j _ hj

/-- C11 at a concrete input: a disabled channel with count 9 in a table of two
channels. -/
theorem C11_counts_reset_witness :
    [ch_AB 1 0 3, { ch_AB 0 1 9 with enabled := 0 }][1]?
      = some { ch_AB 0 1 9 with enabled := 0 } ∧
    (encoder_counts_reset [ch_AB 1 0 3, { ch_AB 0 1 9 with enabled := 0 }] 1).bind
      (fun e => encoder_counts_get e 1) = some 0 := by
  obtain ⟨enc2, h1, h2, _⟩ := C11_counts_reset_then_get
    [ch_AB 1 0 3, { ch_AB 0 1 9 with enabled := 0 }] 1
    { ch_AB 0 1 9 with enabled := 0 } rfl (by decide)
  exact ⟨rfl, by rw [h1]; exact h2⟩

/-- C12: for a channel `c` of the table and an 8-bit value `s`,
`encoder_state_set(c, s)` returns a table on which `encoder_state_get(c)` is 1
when `s` is non-zero and 0 when `s` is zero, in which channel `c` differs from
before in `enabled` only, and in which every other channel is as before. -/
theorem C12_state_set_then_get (enc : List encoder_ch_t) (c s : Nat) (ch : encoder_ch_t)
    (hc : enc[c]? = some ch) (hlt : c < 256) (hs : s < 256) :
    ∃ enc2, encoder_state_set enc c s = some enc2 ∧
      encoder_state_get enc2 c = some (if s ≠ 0 then 1 else 0) ∧
      enc2[c]? = some { ch with enabled := if s ≠ 0 then 1 else 0 } ∧
      enc2.length = enc.length ∧
      ∀ j, j ≠ c → enc2[j]? = enc[j]? := by
  have hm : c % 256 = c := Nat.mod_eq_of_lt hlt
  have hsm : s % 256 = s := Nat.mod_eq_of_lt hs
  refine ⟨enc.set c { ch with enabled := if s ≠ 0 then 1 else 0 }, ?_, ?_, ?_, ?_, ?_⟩
  · simp [encoder_state_set, hm, hsm, hc]
  · simp [encoder_state_get, hm, getElem?_set_same enc c ch _ hc]
  · exact getElem?_set_same enc c ch _ hc
  · simp
  · intro j hj
    exact getElem?_set_other enc c j _ hj

/-- C12 at a concrete input: `encoder_state_set(1, 200)` on a table of two
channels whose channel 1 is disabled. -/
theorem C12_state_set_witness :
    [ch_AB 1 0 3, { ch_AB 0 1 9 with enabled := 0 }][1]?
      = some { ch_AB 0 1 9 with enabled := 0 } ∧
    (encoder_state_set [ch_AB 1 0 3, { ch_AB 0 1 9 with enabled := 0 }] 1 200).bind
      (fun e => encoder_state_get e 1) = some 1 := by
  obtain ⟨enc2, h1, h2, _⟩ := C12_state_set_then_get
    [ch_AB 1 0 3, { ch_AB 0 1 9 with enabled := 0 }] 1 200
    { ch_AB 0 1 9 with enabled := 0 } rfl (by decide) (by decide)
  exact ⟨rfl, by rw [h1]; exact h2⟩

theorem lor_shift_lt_256 (a b : Nat) (ha : a < 256) (hb : b < 128) :
    a ||| (b <<< 1) < 256 := by
  have h1 : a < 2 ^ 8 := by omega
  have h2 : b <<< 1 < 2 ^ 8 := by rw [Nat.shiftLeft_eq]; omega
  have h3 := Nat.or_lt_two_pow h1 h2
  omega

/-- C13: for a channel `c` of the table whose last A and B levels are levels
held in a `uint8_t` with `state[PH_B] << 1` inside the 8 bits (in particular
the bits 0 and 1), and for 8-bit arguments, `encoder_setup(c, enabled,
using_B, using_Z)` returns a table whose channel `c` has the three flags equal
to the arguments and `AB_state = state[PH_A] | (state[PH_B] << 1)` from the
levels held before the call, with `counts`, `state`, `port` and `pin` of the
channel and every other channel as before. -/
theorem C13_setup_sets_flags_and_AB_state (enc : List encoder_ch_t) (c : Nat)
    (ch : encoder_ch_t) (enabled using_B using_Z : Nat)
    (hc : enc[c]? = some ch) (hlt : c < 256)
    (hen : enabled < 256) (hub : using_B < 256) (huz : using_Z < 256)
    (hA : ch.state PH_A < 256) (hB : ch.state PH_B < 128) :
    ∃ enc2 ch2, encoder_setup enc c enabled using_B using_Z = some enc2 ∧
      enc2[c]? = some ch2 ∧
      ch2.enabled = enabled ∧ ch2.using_B = using_B ∧ ch2.using_Z = using_Z ∧
      ch2.AB_state = ch.state PH_A ||| (ch.state PH_B <<< 1) ∧
      ch2.counts = ch.counts ∧ ch2.state = ch.state ∧
      ch2.port = ch.port ∧ ch2.pin = ch.pin ∧
      enc2.length = enc.length ∧
      ∀ j, j ≠ c → enc2[j]? = enc[j]? := by
  have hm : c % 256 = c := Nat.mod_eq_of_lt hlt
  have hab : (ch.state PH_A ||| (ch.state PH_B <<< 1)) % 256
      = ch.state PH_A ||| (ch.state PH_B <<< 1) :=
    Nat.mod_eq_of_lt (lor_shift_lt_256 _ _ hA hB)
  refine ⟨enc.set c { ch with
      enabled := enabled % 256, using_B := using_B % 256, using_Z := using_Z % 256,
      AB_state := (ch.state PH_A ||| (ch.state PH_B <<< 1)) % 256 }, _, ?_,
    getElem?_set_same enc c ch _ hc, ?_, ?_, ?_, ?_, rfl, rfl, rfl, rfl, ?_, ?_⟩
  · simp [encoder_setup, hm, hc]
  · exact Nat.mod_eq_of_lt hen
  · exact Nat.mod_eq_of_lt hub
  · exact Nat.mod_eq_of_lt huz
  · exact hab
  · simp
  · intro j hj
    exact getElem?_set_other enc c j _ hj

/-- C13 at a concrete input: `encoder_setup(0, 1, 1, 0)` on a channel whose
last levels are A = 1, B = 1 and whose `AB_state` is still 0. -/
theorem C13_setup_witness :
    [{ ch_AB 1 1 4 with AB_state := 0 }][0]? = some { ch_AB 1 1 4 with AB_state := 0 } ∧
    ({ ch_AB 1 1 4 with AB_state := 0 } : encoder_ch_t).state PH_A < 256 ∧
    ({ ch_AB 1 1 4 with AB_state := 0 } : encoder_ch_t).state PH_B < 128 ∧
    ∃ enc2 ch2, encoder_setup [{ ch_AB 1 1 4 with AB_state := 0 }] 0 1 1 0 = some enc2 ∧
      enc2[0]? = some ch2 ∧ ch2.AB_state = 3 ∧ ch2.counts = 4 := by
  obtain ⟨enc2, ch2, h1, h2, _, _, _, h3, h4, _⟩ := C13_setup_sets_flags_and_AB_state
    [{ ch_AB 1 1 4 with AB_state := 0 }] 0 { ch_AB 1 1 4 with AB_state := 0 } 1 1 0
    rfl (by decide) (by decide) (by decide) (by decide) (by decide) (by decide)
  exact ⟨rfl, by decide, by decide, enc2, ch2, h1, h2, h3, h4⟩

/-- C14: for a channel `c` of the table, a phase `p` among `PH_A`, `PH_B`,
`PH_Z` and an 8-bit port and pin, `encoder_pin_setup(c, p, port, pin)` returns
a table whose channel `c` has `state[p]` equal to the level read from that
port and pin (as a `uint8_t`), `port[p]` and `pin[p]` equal to the arguments,
the other two phases, `counts`, the flags and `AB_state` as before, and whose
other channels are as before. -/
theorem C14_pin_setup_binds_and_samples (g : gpio_t) (enc : List encoder_ch_t) (c : Nat)
    (ch : encoder_ch_t) (p port pin : Nat)
    (hc : enc[c]? = some ch) (hlt : c < 256)
    (hp : p = PH_A ∨ p = PH_B ∨ p = PH_Z) (hport : port < 256) (hpin : pin < 256) :
    ∃ enc2 ch2, encoder_pin_setup g enc c p port pin = some enc2 ∧
      enc2[c]? = some ch2 ∧
      ch2.state p = g port pin % 256 ∧ ch2.port p = port ∧ ch2.pin p = pin ∧
      (∀ q, q ≠ p →
        ch2.state q = ch.state q ∧ ch2.port q = ch.port q ∧ ch2.pin q = ch.pin q) ∧
      ch2.counts = ch.counts ∧ ch2.enabled = ch.enabled ∧
      ch2.using_B = ch.using_B ∧ ch2.using_Z = ch.using_Z ∧
      ch2.AB_state = ch.AB_state ∧
      enc2.length = enc.length ∧
      ∀ j, j ≠ c → enc2[j]? = enc[j]? := by
  have hm : c % 256 = c := Nat.mod_eq_of_lt hlt
  have hp2 : p ≤ 2 := by
    rcases hp with h | h | h <;> simp [h, PH_A, PH_B, PH_Z]
  have hpm : p % 256 = p := Nat.mod_eq_of_lt (by omega)
  have hpo : port % 256 = port := Nat.mod_eq_of_lt hport
  have hpi : pin % 256 = pin := Nat.mod_eq_of_lt hpin
  refine ⟨enc.set c { ch with
      port := Function.update ch.port p port, pin := Function.update ch.pin p pin,
      state := Function.update ch.state p (g port pin % 256) }, _, ?_,
    getElem?_set_same enc c ch _ hc, ?_, ?_, ?_, ?_, rfl, rfl, rfl, rfl, rfl, ?_, ?_⟩
  · simp [encoder_pin_setup, hm, hc, hpm, hpo, hpi, PH_Z, hp2]
  · simp
  · simp
  · simp
  · intro q hq
    simp [Function.update_noteq hq]
  · simp
  · intro j hj
    exact getElem?_set_other enc c j _ hj

/-- C14 at a concrete input: phase B of channel 0 of the zero-initialised
table of two channels bound to port 1, pin 3 while that pin reads 1. -/
theorem C14_pin_setup_witness :
    (enc_init 2)[0]? = some encoder_ch_zero ∧
    ∃ enc2 ch2, encoder_pin_setup (levels 0 1 0) (enc_init 2) 0 PH_B 1 3 = some enc2 ∧
      enc2[0]? = some ch2 ∧ ch2.state PH_B = 1 ∧ ch2.port PH_B = 1 ∧ ch2.pin PH_B = 3 ∧
      ch2.state PH_A = 0 ∧ ch2.counts = 0 := by
  obtain ⟨enc2, ch2, h1, h2, h3, h4, h5, h6, h7, _⟩ := C14_pin_setup_binds_and_samples
    (levels 0 1 0) (enc_init 2) 0 encoder_ch_zero PH_B 1 3
    rfl (by decide) (Or.inr (Or.inl rfl)) (by decide) (by decide)
  refine ⟨rfl, enc2, ch2, h1, h2, ?_, h4, h5, ?_, ?_⟩
  · rw [h3]; decide
  · rw [(h6 PH_A (by decide)).1]; rfl
  · rw [h7]; rfl

theorem msg_recv_loop_id (enc : List encoder_ch_t) : ∀ i, msg_recv_loop i enc = enc := by
  intro i
  induction i with
  | zero => rfl
  | succ n ih => rw [msg_recv_loop, ih]

/-- C15: for every command type, message and length, `encoder_msg_recv`
returns 0 when the type is `ENCODER_MSG_PINS_SETUP` and -1 when it is not, and
the channel table after the call is the table before it. -/
theorem C15_msg_recv_status_and_frame (ENCODER_MSG_PINS_SETUP : Nat)
    (enc : List encoder_ch_t) (type : Nat) (msg : List Nat) (length : Nat) :
    encoder_msg_recv ENCODER_MSG_PINS_SETUP enc type msg length =
      (if type % 256 = ENCODER_MSG_PINS_SETUP then 0 else -1, enc) := by
  unfold encoder_msg_recv
  split
  · rw [msg_recv_loop_id]
  · rfl

/-! ## Disabling and re-enabling -/

theorem main_loop_length :
    ∀ (gs : List gpio_t) (enc enc2 : List encoder_ch_t), enc.length < 256 →
      encoder_main_loop gs enc = some enc2 → enc2.length = enc.length := by
  intro gs
  induction gs with
  | nil =>
    intro enc enc2 _ h
    simp only [encoder_main_loop, Option.some.injEq] at h
    rw [h]
  | cons g gs ih =>
    intro enc enc2 hlen h
    simp only [encoder_main_loop] at h
    cases h1 : encoder_module_base_thread g enc with
    | none => simp [h1] at h
    | some enc1 =>
      simp only [h1] at h
      have hl1 := base_thread_length g enc enc1 hlen h1
      rw [ih enc1 enc2 (by rw [hl1]; exact hlen) h, hl1]

/-- C16, counterexample: a two-phase channel with last levels (0,0) and count 0
is disabled, one tick runs while (A,B) read (1,0), the channel is re-enabled,
and the next tick reads the same (1,0): the count after it is 1, not 0. -/
theorem C16_reenable_counts_stale_step :
    ((((encoder_state_set [ch_AB 0 0 0] 0 0).bind
        (fun e => encoder_main_loop [levels 1 0 0] e)).bind
        (fun e => encoder_state_set e 0 1)).bind
        (fun e => encoder_module_base_thread (levels 1 0 0) e)).bind
        (fun e => encoder_counts_get e 0) = some 1 ∧
    encoder_counts_get [ch_AB 0 0 0] 0 = some 0 := by
  decide

/-- C16, amended: when an enabled two-phase channel `c` (phase Z unused) is
disabled with `encoder_state_set`, any ticks are run, and it is re-enabled with
`encoder_state_set`, the channel is as it was before it was disabled, with
`enabled = 1`: the ticks run while disabled recorded nothing. A first tick
after that which reads A and B equal to those kept last levels returns the
channel as it is, so the count is the count before. -/
theorem C16_reenable_resumes_from_kept_levels (gs : List gpio_t) (g : gpio_t)
    (enc enc3 : List encoder_ch_t) (c s : Nat) (ch : encoder_ch_t)
    (hlen : enc.length < 256) (hc : enc[c]? = some ch)
    (_hen : ch.enabled ≠ 0) (hB : ch.using_B ≠ 0) (hZ : ch.using_Z = 0)
    (hs : s % 256 ≠ 0)
    (hrun : ((encoder_state_set enc c 0).bind (fun e => encoder_main_loop gs e)).bind
      (fun e => encoder_state_set e c s) = some enc3)
    (hA : g (ch.port PH_A) (ch.pin PH_A) % 256 = ch.state PH_A)
    (hBl : g (ch.port PH_B) (ch.pin PH_B) % 256 = ch.state PH_B) :
    enc3[c]? = some { ch with enabled := 1 } ∧
    encoder_ch_tick g { ch with enabled := 1 } = some { ch with enabled := 1 } ∧
    ∀ enc4, encoder_module_base_thread g enc3 = some enc4 →
      enc4[c]? = some { ch with enabled := 1 } ∧
      encoder_counts_get enc4 c = some ch.counts := by
  have hclt : c < 256 := by
    obtain ⟨h1, _⟩ := List.getElem?_eq_some.mp hc
    omega
  have hm : c % 256 = c := Nat.mod_eq_of_lt hclt
  -- the three calls, one after the other
  have h1 : encoder_state_set enc c 0 = some (enc.set c { ch with enabled := 0 }) := by
    simp [encoder_state_set, hm, hc]
  rw [h1, Option.some_bind] at hrun
  cases h2 : encoder_main_loop gs (enc.set c { ch with enabled := 0 }) with
  | none => simp [h2] at hrun
  | some enc2 =>
    rw [h2, Option.some_bind] at hrun
    have hc2 : enc2[c]? = some { ch with enabled := 0 } :=
      main_loop_fixed c { ch with enabled := 0 } gs _ enc2 (by simpa using hlen)
        (getElem?_set_same enc c ch _ hc)
        (fun g2 _ => encoder_ch_tick_disabled g2 _ rfl) h2
    have hl2 : enc2.length = enc.length := by
      rw [main_loop_length gs _ enc2 (by simpa using hlen) h2]; simp
    have h3 : enc3 = enc2.set c { ch with enabled := 1 } := by
      simp [encoder_state_set, hm, hc2, hs] at hrun
      exact hrun.symm
    have hc3 : enc3[c]? = some { ch with enabled := 1 } := by
      rw [h3]; exact getElem?_set_same enc2 c _ _ hc2
    have hz : phase_Z_update g { ch with enabled := 1 } = { ch with enabled := 1 } := by
      simp [phase_Z_update, hZ]
    have ht : encoder_ch_tick g { ch with enabled := 1 } = some { ch with enabled := 1 } := by
      simp [encoder_ch_tick, decode_A_B, hz, hB, hA, hBl,
        phase_AB_update_same _ _ { ch with enabled := 1 } rfl rfl]
    refine ⟨hc3, ht, ?_⟩
    intro enc4 h4
    have hc4 := base_thread_lift g enc3 c _ _ (by rw [h3]; simpa [hl2] using hlen) hc3 ht
      enc4 h4
    exact ⟨hc4, by simp [counts_get_eq _ c hclt, hc4]⟩

/-- C16, amended, at a concrete input: a two-phase channel with last levels
(1,0) and count 6 is disabled, two ticks run while (A,B) read (1,1) and (0,1),
the channel is re-enabled, and the next tick reads (1,0) again. -/
theorem C16_reenable_witness :
    ((encoder_state_set [ch_AB 1 0 6] 0 0).bind
        (fun e => encoder_main_loop [levels 1 1 0, levels 0 1 0] e)).bind
        (fun e => encoder_state_set e 0 1) = some [{ ch_AB 1 0 6 with enabled := 1 }] ∧
    encoder_ch_tick (levels 1 0 0) { ch_AB 1 0 6 with enabled := 1 }
      = some { ch_AB 1 0 6 with enabled := 1 } ∧
    (encoder_module_base_thread (levels 1 0 0) [{ ch_AB 1 0 6 with enabled := 1 }]).bind
        (fun e => encoder_counts_get e 0) = some 6 := by
  have hrun : ((encoder_state_set [ch_AB 1 0 6] 0 0).bind
        (fun e => encoder_main_loop [levels 1 1 0, levels 0 1 0] e)).bind
        (fun e => encoder_state_set e 0 1) = some [{ ch_AB 1 0 6 with enabled := 1 }] := rfl
  have h := C16_reenable_resumes_from_kept_levels [levels 1 1 0, levels 0 1 0]
    (levels 1 0 0) [ch_AB 1 0 6] [{ ch_AB 1 0 6 with enabled := 1 }] 0 1 (ch_AB 1 0 6)
    (by decide) rfl (by decide) (by decide) rfl (by decide) hrun (by decide) (by decide)
  exact ⟨hrun, h.2.1, by decide⟩

/-! ## Independence of the channels -/

/-- The loop body reads the inputs at the channel's own three pins only. -/
theorem encoder_ch_tick_congr (g g2 : gpio_t) (ch : encoder_ch_t)
    (hA : g2 (ch.port PH_A) (ch.pin PH_A) = g (ch.port PH_A) (ch.pin PH_A))
    (hB : g2 (ch.port PH_B) (ch.pin PH_B) = g (ch.port PH_B) (ch.pin PH_B))
    (hZ : g2 (ch.port PH_Z) (ch.pin PH_Z) = g (ch.port PH_Z) (ch.pin PH_Z)) :
    encoder_ch_tick g2 ch = encoder_ch_tick g ch := by
  obtain ⟨_, _, fport, fpin, _, _, _, _⟩ := phase_Z_update_frame g ch
  have hz : phase_Z_update g2 ch = phase_Z_update g ch := by
    unfold phase_Z_update
    rw [hZ]
  unfold encoder_ch_tick
  rw [hz]
  unfold decode_A_B
  simp only [fport, fpin, hA, hB]

/-- C17: for a table whose length fits the `uint8_t` loop counter, the polling
thread (last channel to first) returns exactly what the first-to-last pass
returns; when it returns a table, that table has the same length and holds at
every index `c` the result of the loop body on the prior channel `c`; and the
loop body on a channel depends on the inputs only through the levels read at
that channel's own A, B and Z pins. -/
theorem C17_channels_are_independent (g : gpio_t) (enc : List encoder_ch_t)
    (hlen : enc.length < 256) :
    encoder_module_base_thread g enc = base_thread_forward g enc ∧
    (∀ enc2, encoder_module_base_thread g enc = some enc2 →
      enc2.length = enc.length ∧
      ∀ (c : Nat) (ch : encoder_ch_t), enc[c]? = some ch →
        ∃ ch2, encoder_ch_tick g ch = some ch2 ∧ enc2[c]? = some ch2) ∧
    (∀ (ch : encoder_ch_t) (g2 : gpio_t),
      g2 (ch.port PH_A) (ch.pin PH_A) = g (ch.port PH_A) (ch.pin PH_A) →
      g2 (ch.port PH_B) (ch.pin PH_B) = g (ch.port PH_B) (ch.pin PH_B) →
      g2 (ch.port PH_Z) (ch.pin PH_Z) = g (ch.port PH_Z) (ch.pin PH_Z) →
      encoder_ch_tick g2 ch = encoder_ch_tick g ch) :=
  ⟨base_thread_eq_forward g enc hlen,
   fun enc2 h => ⟨base_thread_length g enc enc2 hlen h,
     fun c ch hc => base_thread_get g enc enc2 c ch hlen h hc⟩,
   fun ch g2 hA hB hZ => encoder_ch_tick_congr g g2 ch hA hB hZ⟩

/-- C17 at a concrete input: a table of a two-phase and a single-phase channel
that share port 1, on a tick that reads A = 1 and B = 1. -/
theorem C17_channels_witness :
    [ch_AB 0 0 0, ch_A 0 5].length < 256 ∧
    encoder_module_base_thread (levels 1 1 0) [ch_AB 0 0 0, ch_A 0 5]
      = base_thread_forward (levels 1 1 0) [ch_AB 0 0 0, ch_A 0 5] ∧
    (base_thread_forward (levels 1 1 0) [ch_AB 0 0 0, ch_A 0 5]).map
      (fun e => e.map (fun r => r.counts)) = some [-1, 6] :=
  ⟨by decide,
   (C17_channels_are_independent (levels 1 1 0) [ch_AB 0 0 0, ch_A 0 5] (by decide)).1,
   by decide⟩

/-! ## Bounds of the stored levels and of the lookups -/

theorem phase_Z_update_bits (g : gpio_t) (ch : encoder_ch_t)
    (hst : ∀ ph, ch.state ph ≤ 1) (hg : ∀ p q, g p q ≤ 1) :
    ∀ ph, (phase_Z_update g ch).state ph ≤ 1 := by
  intro ph
  have hz : g (ch.port PH_Z) (ch.pin PH_Z) % 256 ≤ 1 := by
    have := hg (ch.port PH_Z) (ch.pin PH_Z); omega
  unfold phase_Z_update
  split
  · simp only []
    split
    · split <;>
      · simp only [Function.update_apply]
        split
        · exact hz
        · exact hst ph
    · exact hst ph
  · exact hst ph

theorem phase_AB_update_AB_state (A B : Nat) (ch ch2 : encoder_ch_t)
    (h : phase_AB_update A B ch = some ch2) :
    (ch.state PH_A = A ∧ ch.state PH_B = B ∧ ch2.AB_state = ch.AB_state) ∨
    ((ch.state PH_A ≠ A ∨ ch.state PH_B ≠ B) ∧ ch2.AB_state = (A ||| (B <<< 1)) % 256) := by
  unfold phase_AB_update at h
  split at h
  · rename_i hchg
    simp only [] at h
    split at h
    · simp only [Option.some.injEq] at h
      subst h
      exact Or.inr ⟨hchg, rfl⟩
    · simp at h
  · rename_i hsame
    simp only [Option.some.injEq] at h
    subst h
    left
    refine ⟨?_, ?_, rfl⟩
    · by_contra hne; exact hsame (Or.inl hne)
    · by_contra hne; exact hsame (Or.inr hne)

theorem lor_shift_bits (a b : Nat) (ha : a ≤ 1) (hb : b ≤ 1) :
    (a ||| (b <<< 1)) % 256 = a ||| (b <<< 1) ∧ a ||| (b <<< 1) ≤ 3 := by
  interval_cases a <;> interval_cases b <;> decide

/-- The loop body keeps the stored levels bits and `AB_state` at most 3 when
the inputs read bits. -/
theorem encoder_ch_tick_bits (g : gpio_t) (ch ch2 : encoder_ch_t)
    (hst : ∀ ph, ch.state ph ≤ 1) (hab : ch.AB_state ≤ 3) (hg : ∀ p q, g p q ≤ 1)
    (ht : encoder_ch_tick g ch = some ch2) :
    (∀ ph, ch2.state ph ≤ 1) ∧ ch2.AB_state ≤ 3 := by
  by_cases hen : ch.enabled = 0
  · rw [encoder_ch_tick_disabled g ch hen] at ht
    cases ht
    exact ⟨hst, hab⟩
  · have hA : g (ch.port PH_A) (ch.pin PH_A) % 256 ≤ 1 := by
      have := hg (ch.port PH_A) (ch.pin PH_A); omega
    have hB : g (ch.port PH_B) (ch.pin PH_B) % 256 ≤ 1 := by
      have := hg (ch.port PH_B) (ch.pin PH_B); omega
    have hz := phase_Z_update_bits g ch hst hg
    obtain ⟨_, _, _, _, _, _, _, fab⟩ := phase_Z_update_frame g ch
    obtain ⟨ch3, h23, hB3, hA3⟩ := encoder_ch_tick_enabled g ch ch2 _ _ rfl rfl hen ht
    subst h23
    have key : (∀ ph, ch3.state ph ≤ 1) ∧ ch3.AB_state ≤ 3 := by
      by_cases hb : ch.using_B = 0
      · have h3 := hA3 hb
        have hs3 : ch3.state = (phase_Z_update g ch).state := by rw [h3]; split <;> rfl
        have ha3 : ch3.AB_state = (phase_Z_update g ch).AB_state := by
          rw [h3]; split <;> rfl
        exact ⟨fun ph => by rw [hs3]; exact hz ph, by rw [ha3, fab]; exact hab⟩
      · obtain ⟨ch4, h4, h34⟩ := hB3 hb
        obtain ⟨hs4, _⟩ := phase_AB_update_frame _ _ _ _ h4
        subst h34
        refine ⟨?_, ?_⟩
        · intro ph
          simp only [Function.update_apply, hs4]
          split
          · exact hB
          · exact hz ph
        · rcases phase_AB_update_AB_state _ _ _ _ h4 with ⟨_, _, h⟩ | ⟨_, h⟩
          · show ch4.AB_state ≤ 3
            rw [h, fab]; exact hab
          · show ch4.AB_state ≤ 3
            rw [h, (lor_shift_bits _ _ hA hB).1]
            exact (lor_shift_bits _ _ hA hB).2
    refine ⟨?_, key.2⟩
    intro ph
    simp only [Function.update_apply]
    split
    · exact hA
    · exact key.1 ph

theorem base_thread_forward_preserves (g : gpio_t) (P : encoder_ch_t → Prop)
    (hP : ∀ ch ch2, P ch → encoder_ch_tick g ch = some ch2 → P ch2) :
    ∀ enc enc2 : List encoder_ch_t, base_thread_forward g enc = some enc2 →
      (∀ ch ∈ enc, P ch) → ∀ ch ∈ enc2, P ch := by
  intro enc
  induction enc with
  | nil =>
    intro enc2 h _
    simp only [base_thread_forward, Option.some.injEq] at h
    subst h
    simp
  | cons hd rest ih =>
    intro enc2 h hall
    simp only [base_thread_forward] at h
    cases hhd : encoder_ch_tick g hd with
    | none => simp [hhd] at h
    | some hd2 =>
      cases hrest : base_thread_forward g rest with
      | none => simp [hhd, hrest] at h
      | some rest2 =>
        simp only [hhd, hrest, Option.some.injEq] at h
        subst h
        intro ch hch
        rcases List.mem_cons.mp hch with h1 | h1
        · rw [h1]
          exact hP hd hd2 (hall hd (List.mem_cons_self hd rest)) hhd
        · exact ih rest2 hrest (fun x hx => hall x (List.mem_cons_of_mem hd hx)) ch h1

theorem set_preserves (P : encoder_ch_t → Prop) (enc : List encoder_ch_t) (c : Nat)
    (x : encoder_ch_t) (hall : ∀ ch ∈ enc, P ch) (hx : P x) :
    ∀ ch ∈ enc.set c x, P ch := by
  intro ch hch
  rcases List.mem_or_eq_of_mem_set hch with h | h
  · exact hall ch h
  · rw [h]; exact hx

/-- A valid call on a table of `cnt` channels whose stored levels are bits and
whose `AB_state` values are at most 3 returns such a table again. -/
theorem encoder_call_run_bits (cnt : Nat) (k : encoder_call) (enc : List encoder_ch_t)
    (hcnt : cnt < 256) (hlen : enc.length = cnt) (hv : k.valid cnt)
    (hinv : ∀ ch ∈ enc, (∀ ph, ch.state ph ≤ 1) ∧ ch.AB_state ≤ 3) :
    ∃ enc2, k.run enc = some enc2 ∧ enc2.length = cnt ∧
      ∀ ch ∈ enc2, (∀ ph, ch.state ph ≤ 1) ∧ ch.AB_state ≤ 3 := by
  have hidx : ∀ c, c < cnt → c % 256 = c ∧ ∃ ch, enc[c]? = some ch ∧ ch ∈ enc := by
    intro c hc
    have h1 : c < enc.length := by omega
    exact ⟨Nat.mod_eq_of_lt (by omega), enc[c], List.getElem?_eq_getElem h1,
      List.getElem_mem h1⟩
  cases k with
  | pin_setup g c phase port pin =>
    obtain ⟨hc, hph, hg⟩ := hv
    obtain ⟨hm, ch, hch, hmem⟩ := hidx c hc
    have hph2 : phase ≤ 2 := hph
    have hpm : phase % 256 = phase := Nat.mod_eq_of_lt (by omega)
    refine ⟨enc.set c { ch with
        port := Function.update ch.port phase (port % 256)
        pin := Function.update ch.pin phase (pin % 256)
        state := Function.update ch.state phase (g (port % 256) (pin % 256) % 256) },
      by simp [encoder_call.run, encoder_pin_setup, hm, hch, hpm, hph],
      by simpa using hlen, ?_⟩
    apply set_preserves _ enc c _ hinv
    refine ⟨?_, (hinv ch hmem).2⟩
    intro ph
    simp only [Function.update_apply]
    split
    · have := hg (port % 256) (pin % 256); omega
    · exact (hinv ch hmem).1 ph
  | setup c enabled using_B using_Z =>
    obtain ⟨hm, ch, hch, hmem⟩ := hidx c hv
    refine ⟨enc.set c { ch with
        enabled := enabled % 256, using_B := using_B % 256, using_Z := using_Z % 256,
        AB_state := (ch.state PH_A ||| (ch.state PH_B <<< 1)) % 256 },
      by simp [encoder_call.run, encoder_setup, hm, hch], by simpa using hlen, ?_⟩
    apply set_preserves _ enc c _ hinv
    refine ⟨(hinv ch hmem).1, ?_⟩
    have h := lor_shift_bits _ _ ((hinv ch hmem).1 PH_A) ((hinv ch hmem).1 PH_B)
    show (ch.state PH_A ||| (ch.state PH_B <<< 1)) % 256 ≤ 3
    rw [h.1]; exact h.2
  | state_set c state =>
    obtain ⟨hm, ch, hch, hmem⟩ := hidx c hv
    refine ⟨enc.set c { ch with enabled := if state % 256 ≠ 0 then 1 else 0 },
      by simp [encoder_call.run, encoder_state_set, hm, hch], by simpa using hlen, ?_⟩
    exact set_preserves _ enc c _ hinv (hinv ch hmem)
  | counts_reset c =>
    obtain ⟨hm, ch, hch, hmem⟩ := hidx c hv
    refine ⟨enc.set c { ch with counts := 0 },
      by simp [encoder_call.run, encoder_counts_reset, hm, hch], by simpa using hlen, ?_⟩
    exact set_preserves _ enc c _ hinv (hinv ch hmem)
  | base_thread g =>
    have hg : ∀ p q, g p q ≤ 1 := hv
    have hlt : enc.length < 256 := by omega
    have hdef : ∀ x ∈ enc, ∃ x2, encoder_ch_tick g x = some x2 := by
      intro x hx
      apply encoder_ch_tick_defined
      intro _ _
      refine ⟨?_, ?_, (hinv x hx).2⟩
      · have := hg (x.port PH_A) (x.pin PH_A); omega
      · have := hg (x.port PH_B) (x.pin PH_B); omega
    obtain ⟨enc2, h2⟩ := base_thread_defined g enc hlt hdef
    refine ⟨enc2, h2, by rw [base_thread_length g enc enc2 hlt h2]; exact hlen, ?_⟩
    rw [base_thread_eq_forward g enc hlt] at h2
    exact base_thread_forward_preserves g _
      (fun ch ch2 hch ht => encoder_ch_tick_bits g ch ch2 hch.1 hch.2 hg ht) enc enc2 h2 hinv

theorem encoder_calls_run_bits (cnt : Nat) (hcnt : cnt < 256) :
    ∀ (calls : List encoder_call) (enc : List encoder_ch_t), enc.length = cnt →
      (∀ k ∈ calls, k.valid cnt) →
      (∀ ch ∈ enc, (∀ ph, ch.state ph ≤ 1) ∧ ch.AB_state ≤ 3) →
      ∃ enc2, encoder_calls_run calls enc = some enc2 ∧ enc2.length = cnt ∧
        ∀ ch ∈ enc2, (∀ ph, ch.state ph ≤ 1) ∧ ch.AB_state ≤ 3 := by
  intro calls
  induction calls with
  | nil => intro enc hlen _ hinv; exact ⟨enc, rfl, hlen, hinv⟩
  | cons k ks ih =>
    intro enc hlen hv hinv
    obtain ⟨enc1, h1, hl1, hi1⟩ := encoder_call_run_bits cnt k enc hcnt hlen
      (hv k (List.mem_cons_self k ks)) hinv
    obtain ⟨enc2, h2, hl2, hi2⟩ := ih enc1 hl1
      (fun x hx => hv x (List.mem_cons_of_mem k hx)) hi1
    exact ⟨enc2, by simp [encoder_calls_run, h1, h2], hl2, hi2⟩

/-- C18: every sequence of calls of `encoder_pin_setup`, `encoder_setup`,
`encoder_state_set`, `encoder_counts_reset` and `encoder_module_base_thread`
with valid channel and phase indices and inputs that read 0 or 1, started on
the zero-initialised table, runs to a table in which every channel has last
levels at most 1 and `AB_state` at most 3; on such a table, for inputs that
read 0 or 1, both indices `AB` and `AB_state + 1` of the lookups in
`state_list` are below its length 5 for every channel, and the polling thread
returns a table. -/
theorem C18_reachable_tables_keep_lookups_in_range (cnt : Nat) (calls : List encoder_call)
    (hcnt : cnt < 256) (hv : ∀ k ∈ calls, k.valid cnt) :
    ∃ enc, encoder_calls_run calls (enc_init cnt) = some enc ∧ enc.length = cnt ∧
      (∀ ch ∈ enc, (∀ ph, ch.state ph ≤ 1) ∧ ch.AB_state ≤ 3) ∧
      ∀ g : gpio_t, (∀ p q, g p q ≤ 1) →
        (∀ ch ∈ enc,
          (g (ch.port PH_A) (ch.pin PH_A) % 256 |||
            ((g (ch.port PH_B) (ch.pin PH_B) % 256) <<< 1)) % 256 < state_list.length ∧
          ch.AB_state + 1 < state_list.length) ∧
        ∃ enc2, encoder_module_base_thread g enc = some enc2 := by
  have h0 : ∀ ch ∈ enc_init cnt, (∀ ph, ch.state ph ≤ 1) ∧ ch.AB_state ≤ 3 := by
    intro ch hch
    have := List.eq_of_mem_replicate hch
    subst this
    exact ⟨fun _ => Nat.zero_le 1, Nat.zero_le 3⟩
  obtain ⟨enc, h1, hl, hi⟩ := encoder_calls_run_bits cnt hcnt calls (enc_init cnt)
    (by simp [enc_init]) hv h0
  refine ⟨enc, h1, hl, hi, ?_⟩
  intro g hg
  have hA : ∀ ch : encoder_ch_t, g (ch.port PH_A) (ch.pin PH_A) % 256 ≤ 1 := by
    intro ch; have := hg (ch.port PH_A) (ch.pin PH_A); omega
  have hB : ∀ ch : encoder_ch_t, g (ch.port PH_B) (ch.pin PH_B) % 256 ≤ 1 := by
    intro ch; have := hg (ch.port PH_B) (ch.pin PH_B); omega
  refine ⟨?_, ?_⟩
  · intro ch hch
    have h := lor_shift_bits _ _ (hA ch) (hB ch)
    have h3 := (hi ch hch).2
    simp only [state_list, List.length_cons, List.length_nil]
    rw [h.1]
    omega
  · apply base_thread_defined g enc (by omega)
    intro x hx
    exact encoder_ch_tick_defined g x (fun _ _ => ⟨hA x, hB x, (hi x hx).2⟩)

theorem levels_bits (a b z : Nat) (ha : a ≤ 1) (hb : b ≤ 1) (hz : z ≤ 1) :
    ∀ p q, levels a b z p q ≤ 1 := by
  intro p q
  unfold levels
  split_ifs <;> omega

/-- C18 at a concrete input: the calls of `calls_example` on the
zero-initialised table of two channels. -/
theorem C18_reachable_witness :
    (∃ enc, encoder_calls_run calls_example (enc_init 2) = some enc ∧ enc.length = 2 ∧
      (∀ ch ∈ enc, (∀ ph, ch.state ph ≤ 1) ∧ ch.AB_state ≤ 3) ∧
      ∃ enc2, encoder_module_base_thread (levels 0 1 0) enc = some enc2) ∧
    (encoder_calls_run calls_example (enc_init 2)).bind
      (fun e => (e[0]?).map (fun r => (r.state PH_A, r.state PH_B, r.AB_state)))
      = some (1, 1, 3) := by
  have hv : ∀ k ∈ calls_example, k.valid 2 := by
    intro k hk
    simp only [calls_example, List.mem_cons, List.mem_singleton, List.not_mem_nil,
      or_false] at hk
    rcases hk with h | h | h | h | h | h | h <;> subst h
    · exact ⟨by decide, by decide, levels_bits 0 0 0 (by decide) (by decide) (by decide)⟩
    · exact ⟨by decide, by decide, levels_bits 0 0 0 (by decide) (by decide) (by decide)⟩
    · show 0 < 2; decide
    · exact levels_bits 1 0 0 (by decide) (by decide) (by decide)
    · exact levels_bits 1 1 0 (by decide) (by decide) (by decide)
    · show 0 < 2; decide
    · show 1 < 2; decide
  obtain ⟨enc, h1, h2, h3, h4⟩ :=
    C18_reachable_tables_keep_lookups_in_range 2 calls_example (by decide) hv
  exact ⟨⟨enc, h1, h2, h3,
    (h4 (levels 0 1 0) (levels_bits 0 1 0 (by decide) (by decide) (by decide))).2⟩,
    by decide⟩

/-! ## The stored quadrature state and the stored levels -/

/-- The result of the loop body on an enabled channel with phase B in use, in
terms of the result of the two-phase block. -/
theorem encoder_ch_tick_two_phase (g : gpio_t) (ch ch2 : encoder_ch_t) (A B : Nat)
    (hA : g (ch.port PH_A) (ch.pin PH_A) % 256 = A)
    (hB : g (ch.port PH_B) (ch.pin PH_B) % 256 = B)
    (hen : ch.enabled ≠ 0) (hub : ch.using_B ≠ 0) (ht : encoder_ch_tick g ch = some ch2) :
    ∃ ch4, phase_AB_update A B (phase_Z_update g ch) = some ch4 ∧
      ch2.state PH_A = A ∧ ch2.state PH_B = B ∧
      ch2.AB_state = ch4.AB_state ∧ ch2.counts = ch4.counts := by
  obtain ⟨ch3, h23, hB3, _⟩ := encoder_ch_tick_enabled g ch ch2 A B hA hB hen ht
  obtain ⟨ch4, h4, h34⟩ := hB3 hub
  subst h23
  subst h34
  exact ⟨ch4, h4, by simp, by simp [PH_A, PH_B, Function.update_apply], rfl, rfl⟩

/-- One run of the loop body on a channel with phase B in use that reads bits
on A and B keeps `AB_state = state[PH_A] | (state[PH_B] << 1)`. -/
theorem encoder_ch_tick_consistent (g : gpio_t) (ch ch2 : encoder_ch_t)
    (hcons : AB_state_consistent ch) (hB : ch.using_B ≠ 0)
    (hA1 : g (ch.port PH_A) (ch.pin PH_A) % 256 ≤ 1)
    (hB1 : g (ch.port PH_B) (ch.pin PH_B) % 256 ≤ 1)
    (ht : encoder_ch_tick g ch = some ch2) : AB_state_consistent ch2 := by
  by_cases hen : ch.enabled = 0
  · rw [encoder_ch_tick_disabled g ch hen] at ht
    cases ht
    exact hcons
  · obtain ⟨fA, fB, _, _, _, _, _, fab⟩ := phase_Z_update_frame g ch
    obtain ⟨ch4, h4, e1, e2, e3, _⟩ :=
      encoder_ch_tick_two_phase g ch ch2 _ _ rfl rfl hen hB ht
    unfold AB_state_consistent at hcons ⊢
    rw [e1, e2, e3]
    rcases phase_AB_update_AB_state _ _ _ _ h4 with ⟨hsA, hsB, h⟩ | ⟨_, h⟩
    · rw [h, fab, hcons, ← fA, ← fB, hsA, hsB]
    · rw [h]
      exact (lor_shift_bits _ _ hA1 hB1).1

/-- C19: for a channel `c` of the table, `encoder_setup` returns a table whose
channel `c` has `AB_state = state[PH_A] | (state[PH_B] << 1)` (for stored
levels that fit, the bits 0 and 1 in particular); and when channel `c` has
that relation and phase B in use, every run of the loop body that reads bits
on A and B, enabled or not, `encoder_state_set` and `encoder_counts_reset`
each leave a channel `c` that has the relation again. When the stored A and B
levels are bits the loop body is defined. -/
theorem C19_AB_state_mirrors_levels (enc : List encoder_ch_t) (c : Nat) (ch : encoder_ch_t)
    (hlen : enc.length < 256) (hc : enc[c]? = some ch) :
    (ch.state PH_A < 256 → ch.state PH_B < 128 →
      ∀ enabled using_B using_Z, ∃ enc2 ch2,
        encoder_setup enc c enabled using_B using_Z = some enc2 ∧ enc2[c]? = some ch2 ∧
        AB_state_consistent ch2) ∧
    (AB_state_consistent ch → ch.using_B ≠ 0 → ∀ g : gpio_t,
      g (ch.port PH_A) (ch.pin PH_A) % 256 ≤ 1 → g (ch.port PH_B) (ch.pin PH_B) % 256 ≤ 1 →
      (∀ ch2, encoder_ch_tick g ch = some ch2 → AB_state_consistent ch2) ∧
      (∀ enc2, encoder_module_base_thread g enc = some enc2 →
        ∃ ch2, enc2[c]? = some ch2 ∧ AB_state_consistent ch2) ∧
      (ch.state PH_A ≤ 1 → ch.state PH_B ≤ 1 → ∃ ch2, encoder_ch_tick g ch = some ch2)) ∧
    (AB_state_consistent ch → ∀ s, ∃ enc2 ch2,
      encoder_state_set enc c s = some enc2 ∧ enc2[c]? = some ch2 ∧
      AB_state_consistent ch2) ∧
    (AB_state_consistent ch → ∃ enc2 ch2,
      encoder_counts_reset enc c = some enc2 ∧ enc2[c]? = some ch2 ∧
      AB_state_consistent ch2) := by
  have hclt : c < 256 := by
    obtain ⟨h1, _⟩ := List.getElem?_eq_some.mp hc
    omega
  have hm : c % 256 = c := Nat.mod_eq_of_lt hclt
  refine ⟨?_, ?_, ?_, ?_⟩
  · intro hA hB enabled using_B using_Z
    refine ⟨enc.set c { ch with
        enabled := enabled % 256, using_B := using_B % 256, using_Z := using_Z % 256,
        AB_state := (ch.state PH_A ||| (ch.state PH_B <<< 1)) % 256 }, _,
      by simp [encoder_setup, hm, hc], getElem?_set_same enc c ch _ hc, ?_⟩
    exact Nat.mod_eq_of_lt (lor_shift_lt_256 _ _ hA hB)
  · intro hcons hB g hA1 hB1
    refine ⟨fun ch2 ht => encoder_ch_tick_consistent g ch ch2 hcons hB hA1 hB1 ht, ?_, ?_⟩
    · intro enc2 h
      obtain ⟨ch2, ht, hg⟩ := base_thread_get g enc enc2 c ch hlen h hc
      exact ⟨ch2, hg, encoder_ch_tick_consistent g ch ch2 hcons hB hA1 hB1 ht⟩
    · intro hsA hsB
      apply encoder_ch_tick_defined
      intro _ _
      refine ⟨hA1, hB1, ?_⟩
      rw [hcons]
      exact (lor_shift_bits _ _ hsA hsB).2
  · intro hcons s
    exact ⟨enc.set c { ch with enabled := if s % 256 ≠ 0 then 1 else 0 }, _,
      by simp [encoder_state_set, hm, hc], getElem?_set_same enc c ch _ hc, hcons⟩
  · intro hcons
    exact ⟨enc.set c { ch with counts := 0 }, _,
      by simp [encoder_counts_reset, hm, hc], getElem?_set_same enc c ch _ hc, hcons⟩

/-- C19 at a concrete input: a two-phase channel with last levels (1,0) and
`AB_state` 0b01 on a tick that reads (1,1). -/
theorem C19_AB_state_witness :
    [ch_AB 1 0 0].length < 256 ∧ [ch_AB 1 0 0][0]? = some (ch_AB 1 0 0) ∧
    AB_state_consistent (ch_AB 1 0 0) ∧
    (∃ ch2, encoder_ch_tick (levels 1 1 0) (ch_AB 1 0 0) = some ch2 ∧
      AB_state_consistent ch2) ∧
    (encoder_module_base_thread (levels 1 1 0) [ch_AB 1 0 0]).bind
      (fun e => (e[0]?).map (fun r => (r.state PH_A, r.state PH_B, r.AB_state)))
      = some (1, 1, 3) := by
  have hcons : AB_state_consistent (ch_AB 1 0 0) := by
    unfold AB_state_consistent; decide
  have h := (C19_AB_state_mirrors_levels [ch_AB 1 0 0] 0 (ch_AB 1 0 0) (by decide) rfl).2.1
    hcons (by decide) (levels 1 1 0) (by decide) (by decide)
  obtain ⟨ch2, ht⟩ := h.2.2 (by decide) (by decide)
  exact ⟨by decide, rfl, hcons, ⟨ch2, ht, h.1 ch2 ht⟩, by decide⟩

/-! ## The direction rule of the two-phase block -/

/-- The two-phase block on changed bit levels with `AB_state` at most 3: both
lookups are defined, and the count goes up exactly when the new `AB` is
`AB_state + 1` modulo 4. -/
theorem phase_AB_update_changed (A B : Nat) (ch : encoder_ch_t)
    (hchg : ch.state PH_A ≠ A ∨ ch.state PH_B ≠ B)
    (hA : A ≤ 1) (hB : B ≤ 1) (hp : ch.AB_state ≤ 3) :
    ∃ ch2, phase_AB_update A B ch = some ch2 ∧
      ch2.AB_state = A ||| (B <<< 1) ∧
      ch2.counts = if A ||| (B <<< 1) = (ch.AB_state + 1) % 4
        then wrap32 (ch.counts + 1) else wrap32 (ch.counts - 1) := by
  unfold phase_AB_update
  rw [if_pos hchg]
  have hcases : ch.AB_state = 0 ∨ ch.AB_state = 1 ∨ ch.AB_state = 2 ∨ ch.AB_state = 3 := by
    omega
  rcases hcases with h | h | h | h <;> interval_cases A <;> interval_cases B <;>
    simp [state_list, h]

theorem phase_Z_update_counts (g : gpio_t) (ch : encoder_ch_t) :
    (¬(ch.using_Z ≠ 0 ∧ ch.state PH_Z ≠ g (ch.port PH_Z) (ch.pin PH_Z) % 256 ∧
        g (ch.port PH_Z) (ch.pin PH_Z) % 256 ≠ 0) →
      (phase_Z_update g ch).counts = ch.counts) ∧
    ((ch.using_Z ≠ 0 ∧ ch.state PH_Z ≠ g (ch.port PH_Z) (ch.pin PH_Z) % 256 ∧
        g (ch.port PH_Z) (ch.pin PH_Z) % 256 ≠ 0) →
      (phase_Z_update g ch).counts = 0) := by
  unfold phase_Z_update
  constructor
  · intro h
    split
    · rename_i h1
      simp only []
      split
      · rename_i h2
        split
        · rename_i h3
          exact absurd ⟨h1, h2, h3⟩ h
        · rfl
      · rfl
    · rfl
  · rintro ⟨h1, h2, h3⟩
    rw [if_pos h1]
    simp only []
    rw [if_pos h2, if_pos h3]

/-- C20, counterexample: an enabled three-phase channel with `AB_state` 0, last
levels all 0 and count 5 that samples (A,B) = (1,0), so that `AB` is
`(AB_state + 1) mod 4`, together with Z = 1 ends the tick with count 1, not
with 5 + 1. -/
theorem C20_step_after_index_reset :
    (encoder_module_base_thread (levels 1 0 1) [ch_ABZ 0 0 0 5]).bind
        (fun e => encoder_counts_get e 0) = some 1 ∧
    (encoder_module_base_thread (levels 1 0 1) [ch_ABZ 0 0 0 5]).bind
        (fun e => encoder_counts_get e 0) ≠ some (wrap32 (5 + 1)) := by
  decide

/-- C20, amended: for an enabled channel `c` with phase B in use, `AB_state`
`p` at most 3 and sampled bits A, B of which one differs from the last level,
the loop body is defined, and with `AB = A | (B << 1)` the count after the
tick is the count left by the phase Z block plus 1 (wrapping to 32 bits) when
`AB = (p + 1) mod 4`, and minus 1 in every other case. The count left by the
phase Z block is the prior count, or 0 when phase Z is in use and is newly
read non-zero. The first four entries of `state_list` are distinct and its
fifth entry is its first. -/
theorem C20_direction_is_binary_successor (g : gpio_t) (enc : List encoder_ch_t)
    (c : Nat) (ch : encoder_ch_t) (hlen : enc.length < 256) (hc : enc[c]? = some ch)
    (hen : ch.enabled ≠ 0) (hB : ch.using_B ≠ 0) (hp : ch.AB_state ≤ 3)
    (hA1 : g (ch.port PH_A) (ch.pin PH_A) % 256 ≤ 1)
    (hB1 : g (ch.port PH_B) (ch.pin PH_B) % 256 ≤ 1)
    (hchg : ch.state PH_A ≠ g (ch.port PH_A) (ch.pin PH_A) % 256 ∨
      ch.state PH_B ≠ g (ch.port PH_B) (ch.pin PH_B) % 256) :
    ∃ ch2, encoder_ch_tick g ch = some ch2 ∧
      (∀ enc2, encoder_module_base_thread g enc = some enc2 → enc2[c]? = some ch2) ∧
      (¬(ch.using_Z ≠ 0 ∧ ch.state PH_Z ≠ g (ch.port PH_Z) (ch.pin PH_Z) % 256 ∧
          g (ch.port PH_Z) (ch.pin PH_Z) % 256 ≠ 0) →
        ch2.counts =
          if g (ch.port PH_A) (ch.pin PH_A) % 256 |||
              ((g (ch.port PH_B) (ch.pin PH_B) % 256) <<< 1) = (ch.AB_state + 1) % 4
          then wrap32 (ch.counts + 1) else wrap32 (ch.counts - 1)) ∧
      ((ch.using_Z ≠ 0 ∧ ch.state PH_Z ≠ g (ch.port PH_Z) (ch.pin PH_Z) % 256 ∧
          g (ch.port PH_Z) (ch.pin PH_Z) % 256 ≠ 0) →
        ch2.counts =
          if g (ch.port PH_A) (ch.pin PH_A) % 256 |||
              ((g (ch.port PH_B) (ch.pin PH_B) % 256) <<< 1) = (ch.AB_state + 1) % 4
          then 1 else -1) ∧
      (∀ i j, i < 4 → j < 4 → state_list[i]? = state_list[j]? → i = j) ∧
      state_list[4]? = state_list[0]? := by
  obtain ⟨fA, fB, _, _, _, _, _, fab⟩ := phase_Z_update_frame g ch
  obtain ⟨ch2, ht⟩ := encoder_ch_tick_defined g ch (fun _ _ => ⟨hA1, hB1, hp⟩)
  obtain ⟨ch4, h4, _, _, _, e4⟩ := encoder_ch_tick_two_phase g ch ch2 _ _ rfl rfl hen hB ht
  obtain ⟨ch5, h5, _, h5c⟩ := phase_AB_update_changed _ _ (phase_Z_update g ch)
    (by rw [fA, fB]; exact hchg) hA1 hB1 (by rw [fab]; exact hp)
  rw [h4] at h5
  cases h5
  rw [fab] at h5c
  obtain ⟨hkeep, hreset⟩ := phase_Z_update_counts g ch
  refine ⟨ch2, ht, base_thread_lift g enc c ch ch2 hlen hc ht, ?_, ?_, ?_, by decide⟩
  · intro hz
    rw [e4, h5c, hkeep hz]
  · intro hz
    rw [e4, h5c, hreset hz]
    split <;> decide
  · intro i j hi hj
    interval_cases i <;> interval_cases j <;> simp [state_list]

/-- C20, amended, at a concrete input: a two-phase channel with last levels
(1,0), `AB_state` 0b01 and count 0 on a tick that reads (A,B) = (0,1), so that
`AB` is 0b10 = (0b01 + 1) mod 4. -/
theorem C20_direction_witness :
    [ch_AB 1 0 0].length < 256 ∧ [ch_AB 1 0 0][0]? = some (ch_AB 1 0 0) ∧
    (ch_AB 1 0 0).enabled ≠ 0 ∧ (ch_AB 1 0 0).using_B ≠ 0 ∧ (ch_AB 1 0 0).AB_state ≤ 3 ∧
    (∃ ch2, encoder_ch_tick (levels 0 1 0) (ch_AB 1 0 0) = some ch2 ∧ ch2.counts = 1) ∧
    (encoder_module_base_thread (levels 0 1 0) [ch_AB 1 0 0]).bind
        (fun e => encoder_counts_get e 0) = some 1 := by
  obtain ⟨ch2, ht, _, h1, _⟩ := C20_direction_is_binary_successor (levels 0 1 0)
    [ch_AB 1 0 0] 0 (ch_AB 1 0 0) (by decide) rfl (by decide) (by decide) (by decide)
    (by decide) (by decide) (Or.inl (by decide))
  refine ⟨by decide, rfl, by decide, by decide, by decide, ⟨ch2, ht, ?_⟩, by decide⟩
  rw [h1 (by decide)]
  decide

end ModEncoder
